import Mathlib

/-
Verification of tidwall/shardmap (src/map.go) against its specification.

The sharded map sits above two external collaborators:
  * rhh.Map — per the spec, a black-box insertion-ordered hash table over
    string keys (interface: new/set/get/delete/len/range with early stop);
    embedded here as an insertion-ordered association list plus the capacity
    hint it was constructed with;
  * xxhash.Sum64String — per the spec, an external deterministic
    string→64-bit-hash function; embedded as an arbitrary parameter
    hf : String → Nat (the router masks it with shards-1, so only its low
    bits matter and nothing here depends on its concrete values).

Concurrency (sync.RWMutex, sync.Once blocking) is out of scope: the model is
the sequential semantics of the operations, with the lazy initializer's
one-time effect modelled by an `inited` flag.  Go `interface{}` values are a
type parameter α; a returned Go nil is `Option.none` (stored values are
always non-nil α's, so rhh's (prev, existed) pairs are (none, false) or
(some v, true), and the `existed` Bool is `Option.isSome` of the value).
-/

namespace Shardmap

/-- Association-list lookup: the value stored under a key, if any. -/
def assocGet {α : Type} : List (String × α) → String → Option α
  | [], _ => none
  | (k', v') :: rest, k => if k' = k then some v' else assocGet rest k

/-- rhh set: replace in place when the key exists (returning the previous
value), otherwise append at the end (insertion order). -/
def assocSet {α : Type} : List (String × α) → String → α → List (String × α) × Option α
  | [], k, v => ([(k, v)], none)
  | (k', v') :: rest, k, v =>
    if k' = k then ((k', v) :: rest, some v')
    else
      let r := assocSet rest k v
      ((k', v') :: r.1, r.2)

/-- rhh delete: remove the entry for the key, returning the removed value. -/
def assocDelete {α : Type} : List (String × α) → String → List (String × α) × Option α
  | [], _ => ([], none)
  | (k', v') :: rest, k =>
    if k' = k then (rest, some v')
    else
      let r := assocDelete rest k
      ((k', v') :: r.1, r.2)

/-- rhh range with early stop.  The visitor is state-threaded (Go visitors
are effectful closures); the Bool result is false when the visitor stopped
the iteration. -/
def assocRange {α σ : Type} (f : σ → String → α → σ × Bool) :
    List (String × α) → σ → σ × Bool
  | [], s => (s, true)
  | (k, v) :: rest, s =>
    let r := f s k v
    if r.2 then assocRange f rest r.1 else (r.1, false)

/-- One shard's store: the external rhh.Map collaborator. -/
structure Rhh (α : Type) where
  cap : Nat
  data : List (String × α)
deriving DecidableEq

/-- rhh.New(cap). -/
def Rhh.new {α : Type} (cap : Nat) : Rhh α := ⟨cap, []⟩

def Rhh.set {α : Type} (m : Rhh α) (key : String) (value : α) : Rhh α × Option α :=
  let r := assocSet m.data key value
  (⟨m.cap, r.1⟩, r.2)

def Rhh.get {α : Type} (m : Rhh α) (key : String) : Option α :=
  assocGet m.data key

def Rhh.delete {α : Type} (m : Rhh α) (key : String) : Rhh α × Option α :=
  let r := assocDelete m.data key
  (⟨m.cap, r.1⟩, r.2)

def Rhh.len {α : Type} (m : Rhh α) : Nat := m.data.length

/-- The Map struct of src/map.go (the lock array carries no sequential
state; sync.Once is the `inited` flag). -/
structure Map (α : Type) where
  inited : Bool
  cap : Nat
  shards : Nat
  maps : List (Rhh α)
deriving DecidableEq

/-- New(cap) / the zero value `var m shardmap.Map` (cap 0). -/
def Map.new {α : Type} (cap : Nat) : Map α := ⟨false, cap, 0, []⟩

/-- One iteration bound of the initializer's loop
`m.shards = 1; for m.shards < n { m.shards *= 2 }`. -/
def shardLoopGo (n : Nat) : Nat → Nat → Nat
  | 0, s => s
  | fuel + 1, s => if s < n then shardLoopGo n fuel (s * 2) else s

/-- The initializer's loop, run with fuel n.  The loop starts at s = 1 and
doubles s each iteration, so n iterations always reach the exit condition
(2 ^ n > n): with that fuel this is exactly the Go loop. -/
def shardLoop (n s : Nat) : Nat := shardLoopGo n n s

/-- initDo: one-time lazy initialization (shard count from NumCPU, shard
stores with capacity hint cap / shards).  `ncpu` is runtime.NumCPU(). -/
def Map.initDo {α : Type} (ncpu : Nat) (m : Map α) : Map α :=
  if m.inited then m
  else
    let shards := shardLoop (ncpu * 16) 1
    let scap := m.cap / shards
    { inited := true, cap := m.cap, shards := shards,
      maps := List.replicate shards (Rhh.new scap) }

/-- choose: int(xxhash.Sum64String(key) & uint64(m.shards-1)). -/
def Map.choose {α : Type} (hf : String → Nat) (m : Map α) (key : String) : Nat :=
  hf key &&& (m.shards - 1)

/-- m.maps[i] — Go indexing; the default is never reached, since every
operation runs behind initDo, which makes maps as long as shards. -/
def Map.shardAt {α : Type} (m : Map α) (i : Nat) : Rhh α :=
  m.maps.getD i (Rhh.new 0)

def Map.set {α : Type} (hf : String → Nat) (ncpu : Nat) (key : String) (value : α)
    (m : Map α) : (Option α × Bool) × Map α :=
  let m := m.initDo ncpu
  let shard := m.choose hf key
  let r := (m.shardAt shard).set key value
  ((r.2, r.2.isSome), { m with maps := m.maps.set shard r.1 })

def Map.setAccept {α : Type} (hf : String → Nat) (ncpu : Nat) (key : String) (value : α)
    (accept : Option (Option α → Bool → Bool)) (m : Map α) : (Option α × Bool) × Map α :=
  let m := m.initDo ncpu
  let shard := m.choose hf key
  let r := (m.shardAt shard).set key value
  match accept with
  | none => ((r.2, r.2.isSome), { m with maps := m.maps.set shard r.1 })
  | some f =>
    if f r.2 r.2.isSome then
      ((r.2, r.2.isSome), { m with maps := m.maps.set shard r.1 })
    else
      match r.2 with
      | none =>
        ((none, false), { m with maps := m.maps.set shard (r.1.delete key).1 })
      | some p =>
        ((none, false), { m with maps := m.maps.set shard (r.1.set key p).1 })

def Map.get {α : Type} (hf : String → Nat) (ncpu : Nat) (key : String)
    (m : Map α) : (Option α × Bool) × Map α :=
  let m := m.initDo ncpu
  let shard := m.choose hf key
  let v := (m.shardAt shard).get key
  ((v, v.isSome), m)

def Map.delete {α : Type} (hf : String → Nat) (ncpu : Nat) (key : String)
    (m : Map α) : (Option α × Bool) × Map α :=
  let m := m.initDo ncpu
  let shard := m.choose hf key
  let r := (m.shardAt shard).delete key
  ((r.2, r.2.isSome), { m with maps := m.maps.set shard r.1 })

def Map.deleteAccept {α : Type} (hf : String → Nat) (ncpu : Nat) (key : String)
    (accept : Option (Option α → Bool → Bool)) (m : Map α) : (Option α × Bool) × Map α :=
  let m := m.initDo ncpu
  let shard := m.choose hf key
  let r := (m.shardAt shard).delete key
  match accept with
  | none => ((r.2, r.2.isSome), { m with maps := m.maps.set shard r.1 })
  | some f =>
    if f r.2 r.2.isSome then
      ((r.2, r.2.isSome), { m with maps := m.maps.set shard r.1 })
    else
      match r.2 with
      | some p =>
        ((none, false), { m with maps := m.maps.set shard (r.1.set key p).1 })
      | none =>
        ((none, false), { m with maps := m.maps.set shard r.1 })

/-- The shard stores in index order, as visited by the loops
`for i := 0; i < m.shards; i++`. -/
def Map.shardSeq {α : Type} (m : Map α) : List (Rhh α) :=
  (List.range m.shards).map (fun i => m.shardAt i)

def Map.len {α : Type} (ncpu : Nat) (m : Map α) : Nat × Map α :=
  let m := m.initDo ncpu
  ((m.shardSeq.map Rhh.len).sum, m)

/-- The shard loop of Range: run the shard's range; a false result from the
wrapped visitor sets `done` and breaks out of the loop. -/
def rangeShards {α σ : Type} (f : σ → String → α → σ × Bool) :
    List (Rhh α) → σ → σ
  | [], s => s
  | sh :: rest, s =>
    let r := assocRange f sh.data s
    if r.2 then rangeShards f rest r.1 else r.1

def Map.range {α σ : Type} (ncpu : Nat) (f : σ → String → α → σ × Bool) (s : σ)
    (m : Map α) : σ × Map α :=
  let m := m.initDo ncpu
  (rangeShards f m.shardSeq s, m)

def Map.clear {α : Type} (ncpu : Nat) (m : Map α) : Map α :=
  let m := m.initDo ncpu
  { m with maps :=
      (List.range m.shards).foldl (fun l i => l.set i (Rhh.new (m.cap / m.shards))) m.maps }

/-- All entries currently stored, shard by shard. -/
def Map.entries {α : Type} (ncpu : Nat) (m : Map α) : List (String × α) :=
  (((m.initDo ncpu).shardSeq).map (fun sh => sh.data)).flatten

/-- The specification's reference object: a single logical key/value map,
an insertion-ordered association list with the same interface semantics
(SetAccept/DeleteAccept are the spec's tentative-mutate / accept / revert
protocol applied to the one logical map). -/
def Log.set {α : Type} (key : String) (value : α) (L : List (String × α)) :
    (Option α × Bool) × List (String × α) :=
  let r := assocSet L key value
  ((r.2, r.2.isSome), r.1)

def Log.get {α : Type} (key : String) (L : List (String × α)) : Option α × Bool :=
  let v := assocGet L key
  (v, v.isSome)

def Log.delete {α : Type} (key : String) (L : List (String × α)) :
    (Option α × Bool) × List (String × α) :=
  let r := assocDelete L key
  ((r.2, r.2.isSome), r.1)

def Log.setAccept {α : Type} (key : String) (value : α)
    (accept : Option (Option α → Bool → Bool)) (L : List (String × α)) :
    (Option α × Bool) × List (String × α) :=
  let r := assocSet L key value
  match accept with
  | none => ((r.2, r.2.isSome), r.1)
  | some f =>
    if f r.2 r.2.isSome then ((r.2, r.2.isSome), r.1)
    else
      match r.2 with
      | none => ((none, false), (assocDelete r.1 key).1)
      | some p => ((none, false), (assocSet r.1 key p).1)

def Log.deleteAccept {α : Type} (key : String)
    (accept : Option (Option α → Bool → Bool)) (L : List (String × α)) :
    (Option α × Bool) × List (String × α) :=
  let r := assocDelete L key
  match accept with
  | none => ((r.2, r.2.isSome), r.1)
  | some f =>
    if f r.2 r.2.isSome then ((r.2, r.2.isSome), r.1)
    else
      match r.2 with
      | some p => ((none, false), (assocSet r.1 key p).1)
      | none => ((none, false), r.1)

/-- One call of the sequential client API (Range is treated separately,
since its observable is the visit sequence). -/
inductive Op (α : Type) where
  | set (key : String) (value : α)
  | get (key : String)
  | del (key : String)
  | setAcc (key : String) (value : α) (accept : Option (Option α → Bool → Bool))
  | delAcc (key : String) (accept : Option (Option α → Bool → Bool))
  | len
  | clear

/-- One call's observable result. -/
inductive Out (α : Type) where
  | pair (prev : Option α) (flag : Bool)
  | count (n : Nat)
  | unit
deriving DecidableEq

def Map.runOp {α : Type} (hf : String → Nat) (ncpu : Nat) :
    Op α → Map α → Out α × Map α
  | .set k v, m => let r := Map.set hf ncpu k v m; (.pair r.1.1 r.1.2, r.2)
  | .get k, m => let r := Map.get hf ncpu k m; (.pair r.1.1 r.1.2, r.2)
  | .del k, m => let r := Map.delete hf ncpu k m; (.pair r.1.1 r.1.2, r.2)
  | .setAcc k v f, m => let r := Map.setAccept hf ncpu k v f m; (.pair r.1.1 r.1.2, r.2)
  | .delAcc k f, m => let r := Map.deleteAccept hf ncpu k f m; (.pair r.1.1 r.1.2, r.2)
  | .len, m => let r := Map.len ncpu m; (.count r.1, r.2)
  | .clear, m => (.unit, Map.clear ncpu m)

def Map.run {α : Type} (hf : String → Nat) (ncpu : Nat) :
    List (Op α) → Map α → List (Out α) × Map α
  | [], m => ([], m)
  | op :: rest, m =>
    let r := Map.runOp hf ncpu op m
    let rr := Map.run hf ncpu rest r.2
    (r.1 :: rr.1, rr.2)

def Log.runOp {α : Type} : Op α → List (String × α) → Out α × List (String × α)
  | .set k v, L => let r := Log.set k v L; (.pair r.1.1 r.1.2, r.2)
  | .get k, L => (.pair (Log.get k L).1 (Log.get k L).2, L)
  | .del k, L => let r := Log.delete k L; (.pair r.1.1 r.1.2, r.2)
  | .setAcc k v f, L => let r := Log.setAccept k v f L; (.pair r.1.1 r.1.2, r.2)
  | .delAcc k f, L => let r := Log.deleteAccept k f L; (.pair r.1.1 r.1.2, r.2)
  | .len, L => (.count L.length, L)
  | .clear, _ => (.unit, [])

def Log.run {α : Type} : List (Op α) → List (String × α) → List (Out α) × List (String × α)
  | [], L => ([], L)
  | op :: rest, L =>
    let r := Log.runOp op L
    let rr := Log.run rest r.2
    (r.1 :: rr.1, rr.2)

/-- Full-iteration Range observable: the entries passed to the visitor, in
visit order, when the visitor never stops early. -/
def Map.rangeCollect {α : Type} (ncpu : Nat) (m : Map α) : List (String × α) :=
  (Map.range ncpu (fun s k v => (s ++ [(k, v)], true)) [] m).1

/-- The same full-iteration observable on the logical reference map. -/
def Log.rangeCollect {α : Type} (L : List (String × α)) : List (String × α) :=
  (assocRange (fun s k v => (s ++ [(k, v)], true)) L []).1

theorem assocSet_prev {α : Type} (l : List (String × α)) (k : String) (v : α) :
    (assocSet l k v).2 = assocGet l k := by
  induction l with
  | nil => rfl
  | cons kv rest ih =>
    obtain ⟨k', v'⟩ := kv
    by_cases h : k' = k <;> simp [assocSet, assocGet, h, ih]

theorem assocDelete_prev {α : Type} (l : List (String × α)) (k : String) :
    (assocDelete l k).2 = assocGet l k := by
  induction l with
  | nil => rfl
  | cons kv rest ih =>
    obtain ⟨k', v'⟩ := kv
    by_cases h : k' = k <;> simp [assocDelete, assocGet, h, ih]

theorem assocGet_assocSet_self {α : Type} (l : List (String × α)) (k : String) (v : α) :
    assocGet (assocSet l k v).1 k = some v := by
  induction l with
  | nil => simp [assocSet, assocGet]
  | cons kv rest ih =>
    obtain ⟨k', v'⟩ := kv
    by_cases h : k' = k <;> simp [assocSet, assocGet, h, ih]

theorem assocGet_assocSet_ne {α : Type} (l : List (String × α)) (k k' : String) (v : α)
    (h : k' ≠ k) : assocGet (assocSet l k v).1 k' = assocGet l k' := by
  induction l with
  | nil => simp [assocSet, assocGet, Ne.symm h]
  | cons kv rest ih =>
    obtain ⟨k0, v0⟩ := kv
    by_cases h0 : k0 = k
    · subst h0
      simp [assocSet, assocGet, Ne.symm h]
    · simp [assocSet, assocGet, h0, ih]

theorem assocGet_assocDelete_ne {α : Type} (l : List (String × α)) (k k' : String)
    (h : k' ≠ k) : assocGet (assocDelete l k).1 k' = assocGet l k' := by
  induction l with
  | nil => simp [assocDelete, assocGet]
  | cons kv rest ih =>
    obtain ⟨k0, v0⟩ := kv
    by_cases h0 : k0 = k
    · subst h0
      simp [assocDelete, assocGet, Ne.symm h]
    · simp [assocDelete, assocGet, h0, ih]

theorem assocGet_isSome_iff {α : Type} (l : List (String × α)) (k : String) :
    (assocGet l k).isSome = true ↔ k ∈ l.map Prod.fst := by
  induction l with
  | nil => simp [assocGet]
  | cons kv rest ih =>
    obtain ⟨k', v'⟩ := kv
    by_cases h : k' = k
    · subst h
      simp [assocGet]
    · simp [assocGet, h, ih, Ne.symm h]

theorem assocGet_eq_none_iff {α : Type} (l : List (String × α)) (k : String) :
    assocGet l k = none ↔ k ∉ l.map Prod.fst := by
  rw [← assocGet_isSome_iff]
  cases assocGet l k <;> simp

theorem mem_of_assocGet {α : Type} {l : List (String × α)} {k : String} {v : α}
    (h : assocGet l k = some v) : (k, v) ∈ l := by
  induction l with
  | nil => simp [assocGet] at h
  | cons kv rest ih =>
    obtain ⟨k', v'⟩ := kv
    by_cases h0 : k' = k
    · subst h0
      simp [assocGet] at h
      simp [h]
    · simp [assocGet, h0] at h
      simp [ih h]

theorem assocGet_of_mem_nodup {α : Type} {l : List (String × α)} {k : String} {v : α}
    (hnd : (l.map Prod.fst).Nodup) (h : (k, v) ∈ l) : assocGet l k = some v := by
  induction l with
  | nil => simp at h
  | cons kv rest ih =>
    obtain ⟨k', v'⟩ := kv
    simp only [List.map_cons, List.nodup_cons] at hnd
    rcases List.mem_cons.mp h with h | h
    · injection h with h1 h2
      subst h1
      subst h2
      simp [assocGet]
    · have hk : k' ≠ k := by
        intro he
        subst he
        exact hnd.1 (List.mem_map_of_mem Prod.fst h)
      simp [assocGet, hk, ih hnd.2 h]

theorem mem_assocSet {α : Type} {l : List (String × α)} {k : String} {v : α}
    {kv : String × α} (h : kv ∈ (assocSet l k v).1) : kv ∈ l ∨ kv.1 = k := by
  induction l with
  | nil =>
    simp [assocSet] at h
    simp [h]
  | cons kv0 rest ih =>
    obtain ⟨k0, v0⟩ := kv0
    by_cases h0 : k0 = k
    · subst h0
      simp [assocSet] at h
      rcases h with h | h
      · exact Or.inr (by simp [h])
      · exact Or.inl (by simp [h])
    · simp [assocSet, h0] at h
      rcases h with h | h
      · exact Or.inl (by simp [h])
      · rcases ih h with h1 | h1
        · exact Or.inl (by simp [h1])
        · exact Or.inr h1

theorem assocDelete_sublist {α : Type} (l : List (String × α)) (k : String) :
    (assocDelete l k).1.Sublist l := by
  induction l with
  | nil => simp [assocDelete]
  | cons kv rest ih =>
    obtain ⟨k', v'⟩ := kv
    by_cases h : k' = k
    · simp [assocDelete, h, List.sublist_cons_self]
    · simpa [assocDelete, h] using List.Sublist.cons₂ (k', v') ih

theorem keys_assocSet_some {α : Type} {l : List (String × α)} {k : String} (v : α)
    (h : (assocGet l k).isSome = true) :
    (assocSet l k v).1.map Prod.fst = l.map Prod.fst := by
  induction l with
  | nil => simp [assocGet] at h
  | cons kv rest ih =>
    obtain ⟨k', v'⟩ := kv
    by_cases h0 : k' = k
    · simp [assocSet, h0]
    · simp [assocGet, h0] at h
      simp [assocSet, h0, ih h]

theorem keys_assocSet_none {α : Type} {l : List (String × α)} {k : String} (v : α)
    (h : assocGet l k = none) :
    (assocSet l k v).1.map Prod.fst = l.map Prod.fst ++ [k] := by
  induction l with
  | nil => simp [assocSet]
  | cons kv rest ih =>
    obtain ⟨k', v'⟩ := kv
    by_cases h0 : k' = k
    · simp [assocGet, h0] at h
    · simp [assocGet, h0] at h
      simp [assocSet, h0, ih h]

theorem keys_assocDelete {α : Type} (l : List (String × α)) (k : String) :
    (assocDelete l k).1.map Prod.fst = (l.map Prod.fst).erase k := by
  induction l with
  | nil => simp [assocDelete]
  | cons kv rest ih =>
    obtain ⟨k', v'⟩ := kv
    by_cases h : k' = k
    · simp [assocDelete, h, List.erase_cons]
    · simp [assocDelete, h, List.erase_cons, ih]

theorem length_assocSet {α : Type} (l : List (String × α)) (k : String) (v : α) :
    (assocSet l k v).1.length
      = if (assocGet l k).isSome then l.length else l.length + 1 := by
  induction l with
  | nil => simp [assocSet, assocGet]
  | cons kv rest ih =>
    obtain ⟨k', v'⟩ := kv
    by_cases h : k' = k
    · simp [assocSet, assocGet, h]
    · simp only [assocSet, assocGet, h, if_false, List.length_cons, ih]
      by_cases h2 : (assocGet rest k).isSome <;> simp [h2]

theorem length_assocDelete_some {α : Type} {l : List (String × α)} {k : String}
    (h : (assocGet l k).isSome = true) :
    (assocDelete l k).1.length + 1 = l.length := by
  induction l with
  | nil => simp [assocGet] at h
  | cons kv rest ih =>
    obtain ⟨k', v'⟩ := kv
    by_cases h0 : k' = k
    · simp [assocDelete, h0]
    · simp [assocGet, h0] at h
      simp [assocDelete, h0, ih h]

theorem assocDelete_none {α : Type} {l : List (String × α)} {k : String}
    (h : assocGet l k = none) : (assocDelete l k).1 = l := by
  induction l with
  | nil => rfl
  | cons kv rest ih =>
    obtain ⟨k', v'⟩ := kv
    by_cases h0 : k' = k
    · simp [assocGet, h0] at h
    · simp [assocGet, h0] at h
      simp [assocDelete, h0, ih h]

theorem assocGet_assocDelete_self {α : Type} {l : List (String × α)} {k : String}
    (hnd : (l.map Prod.fst).Nodup) : assocGet (assocDelete l k).1 k = none := by
  induction l with
  | nil => rfl
  | cons kv rest ih =>
    obtain ⟨k', v'⟩ := kv
    simp only [List.map_cons, List.nodup_cons] at hnd
    by_cases h0 : k' = k
    · subst h0
      simp only [assocDelete, if_pos rfl]
      rw [assocGet_eq_none_iff]
      exact hnd.1
    · simp [assocDelete, assocGet, h0, ih hnd.2]

theorem assocDelete_assocSet_none {α : Type} {l : List (String × α)} {k : String} (v : α)
    (h : assocGet l k = none) : (assocDelete (assocSet l k v).1 k).1 = l := by
  induction l with
  | nil => simp [assocSet, assocDelete]
  | cons kv rest ih =>
    obtain ⟨k', v'⟩ := kv
    by_cases h0 : k' = k
    · simp [assocGet, h0] at h
    · simp [assocGet, h0] at h
      simp [assocSet, assocDelete, h0, ih h]

theorem assocSet_assocSet_some {α : Type} {l : List (String × α)} {k : String} {p : α}
    (v : α) (h : assocGet l k = some p) :
    (assocSet (assocSet l k v).1 k p).1 = l := by
  induction l with
  | nil => simp [assocGet] at h
  | cons kv rest ih =>
    obtain ⟨k', v'⟩ := kv
    by_cases h0 : k' = k
    · simp [assocGet, h0] at h
      simp [assocSet, h0, h]
    · simp [assocGet, h0] at h
      simp [assocSet, h0, ih h]

theorem getD_set_self {β : Type} (l : List β) (i : Nat) (x d : β) (h : i < l.length) :
    (l.set i x).getD i d = x := by
  induction l generalizing i with
  | nil => simp at h
  | cons a rest ih =>
    cases i with
    | zero => simp
    | succ j =>
      simp only [List.set_cons_succ, List.getD_cons_succ]
      exact ih j (by simpa using h)

theorem getD_set_ne {β : Type} (l : List β) (i j : Nat) (x d : β) (h : i ≠ j) :
    (l.set i x).getD j d = l.getD j d := by
  induction l generalizing i j with
  | nil => simp
  | cons a rest ih =>
    cases i with
    | zero =>
      cases j with
      | zero => exact absurd rfl h
      | succ j' => simp
    | succ i' =>
      cases j with
      | zero => simp
      | succ j' =>
        simp only [List.set_cons_succ, List.getD_cons_succ]
        exact ih i' j' (by omega)

theorem set_getD_self {β : Type} (l : List β) (i : Nat) (d : β) :
    l.set i (l.getD i d) = l := by
  induction l generalizing i with
  | nil => simp
  | cons a rest ih =>
    cases i with
    | zero => simp
    | succ j =>
      simp only [List.getD_cons_succ, List.set_cons_succ]
      rw [ih]

theorem getD_eq_default {β : Type} (l : List β) (i : Nat) (d : β) (h : l.length ≤ i) :
    l.getD i d = d := by
  induction l generalizing i with
  | nil => simp
  | cons a rest ih =>
    cases i with
    | zero => simp at h
    | succ j =>
      simp only [List.getD_cons_succ]
      exact ih j (by simpa using h)

theorem sum_map_set {β : Type} (l : List β) (i : Nat) (x d : β) (f : β → Nat)
    (h : i < l.length) :
    (((l.set i x).map f).sum + f (l.getD i d)) = (l.map f).sum + f x := by
  induction l generalizing i with
  | nil => simp at h
  | cons a rest ih =>
    cases i with
    | zero => simp [Nat.add_comm, Nat.add_left_comm]
    | succ j =>
      simp only [List.set_cons_succ, List.map_cons, List.sum_cons, List.getD_cons_succ]
      have := ih j (by simpa using h)
      omega

theorem range_map_getD {β : Type} (l : List β) (d : β) :
    (List.range l.length).map (fun i => l.getD i d) = l := by
  induction l with
  | nil => simp
  | cons a rest ih =>
    rw [List.length_cons, List.range_succ_eq_map, List.map_cons, List.map_map]
    simp only [Function.comp_def, List.getD_cons_zero, List.getD_cons_succ]
    rw [ih]

theorem getD_replicate_lt {β : Type} (n i : Nat) (x d : β) (h : i < n) :
    (List.replicate n x).getD i d = x := by
  induction n generalizing i with
  | zero => omega
  | succ m ih =>
    cases i with
    | zero => simp [List.replicate_succ]
    | succ j =>
      simp only [List.replicate_succ, List.getD_cons_succ]
      exact ih j (by omega)

theorem set_replicate_append {β : Type} (n : Nat) (x z : β) (ys : List β) :
    (List.replicate n x ++ ys).set n z = List.replicate n x ++ ys.set 0 z := by
  induction n with
  | zero => simp
  | succ m ih => simp [List.replicate_succ, ih]

theorem foldl_set_range {β : Type} (n : Nat) (l : List β) (x : β) (h : n ≤ l.length) :
    (List.range n).foldl (fun l' i => l'.set i x) l
      = List.replicate n x ++ l.drop n := by
  induction n with
  | zero => simp
  | succ m ih =>
    rw [List.range_succ, List.foldl_append]
    simp only [List.foldl_cons, List.foldl_nil]
    rw [ih (by omega), set_replicate_append]
    have hd : List.drop m l = l[m] :: List.drop (m + 1) l :=
      List.drop_eq_getElem_cons (by omega)
    simp [List.replicate_succ', List.append_assoc]
    rw [hd]
    rfl

theorem foldl_set_range_replicate {β : Type} (l : List β) (x : β) :
    (List.range l.length).foldl (fun l' i => l'.set i x) l
      = List.replicate l.length x := by
  rw [foldl_set_range l.length l x (Nat.le_refl _)]
  simp

theorem shardLoopGo_ge (n : Nat) : ∀ (fuel s : Nat), n ≤ 2 ^ fuel * s →
    n ≤ shardLoopGo n fuel s := by
  intro fuel
  induction fuel with
  | zero =>
    intro s hs
    simpa [shardLoopGo] using hs
  | succ f ih =>
    intro s hs
    unfold shardLoopGo
    by_cases h : s < n
    · rw [if_pos h]
      refine ih (s * 2) ?_
      calc n ≤ 2 ^ (f + 1) * s := hs
        _ = 2 ^ f * (s * 2) := by ring
    · rw [if_neg h]
      omega

theorem shardLoop_ge (n s : Nat) (hs : 0 < s) : n ≤ shardLoop n s := by
  refine shardLoopGo_ge n n s ?_
  have h1 : n < 2 ^ n := Nat.lt_two_pow n
  have h2 : 2 ^ n * 1 ≤ 2 ^ n * s := Nat.mul_le_mul_left _ hs
  omega

theorem shardLoopGo_pow2 (n : Nat) : ∀ (fuel s : Nat), (∃ e, s = 2 ^ e) →
    ∃ e, shardLoopGo n fuel s = 2 ^ e := by
  intro fuel
  induction fuel with
  | zero =>
    intro s hs
    simpa [shardLoopGo] using hs
  | succ f ih =>
    intro s hs
    obtain ⟨e, he⟩ := hs
    unfold shardLoopGo
    by_cases h : s < n
    · rw [if_pos h]
      exact ih (s * 2) ⟨e + 1, by rw [he]; ring⟩
    · rw [if_neg h]
      exact ⟨e, he⟩

theorem shardLoop_pow2 (n s : Nat) (hs : ∃ e, s = 2 ^ e) : ∃ e, shardLoop n s = 2 ^ e :=
  shardLoopGo_pow2 n n s hs

theorem shardLoopGo_min (n T : Nat) (hT : n ≤ T) (hT2 : ∃ e, T = 2 ^ e) :
    ∀ (fuel s : Nat), s ≤ T → (∃ e, s = 2 ^ e) → shardLoopGo n fuel s ≤ T := by
  intro fuel
  induction fuel with
  | zero =>
    intro s hsT hs
    simpa [shardLoopGo] using hsT
  | succ f ih =>
    intro s hsT hs
    obtain ⟨a, ha⟩ := hs
    obtain ⟨b, hb⟩ := hT2
    unfold shardLoopGo
    by_cases h : s < n
    · rw [if_pos h]
      have hab : a < b := by
        have hlt : (2 : Nat) ^ a < 2 ^ b := by omega
        exact (Nat.pow_lt_pow_iff_right (by omega)).mp hlt
      have h2 : s * 2 ≤ T := by
        have hle : (2 : Nat) ^ (a + 1) ≤ 2 ^ b := Nat.pow_le_pow_right (by omega) (by omega)
        calc s * 2 = 2 ^ (a + 1) := by rw [ha]; ring
          _ ≤ 2 ^ b := hle
          _ = T := hb.symm
      exact ih (s * 2) h2 ⟨a + 1, by rw [ha]; ring⟩
    · rw [if_neg h]
      exact hsT

theorem shardLoop_min (n s T : Nat) (hsT : s ≤ T) (hT : n ≤ T)
    (hs : ∃ e, s = 2 ^ e) (hT2 : ∃ e, T = 2 ^ e) : shardLoop n s ≤ T :=
  shardLoopGo_min n T hT hT2 n s hsT hs

/-- The shard count computed by initDo. -/
def shardCount (ncpu : Nat) : Nat := shardLoop (ncpu * 16) 1

theorem shardCount_pow2 (ncpu : Nat) : ∃ e, shardCount ncpu = 2 ^ e :=
  shardLoop_pow2 _ 1 ⟨0, rfl⟩

theorem shardCount_pos (ncpu : Nat) : 0 < shardCount ncpu := by
  obtain ⟨e, he⟩ := shardCount_pow2 ncpu
  exact he ▸ Nat.pos_pow_of_pos e (by omega)

theorem shardCount_ge (ncpu : Nat) : ncpu * 16 ≤ shardCount ncpu :=
  shardLoop_ge _ 1 (by omega)

theorem and_mask_lt {x S : Nat} (h : ∃ e, S = 2 ^ e) : x &&& (S - 1) < S := by
  obtain ⟨e, he⟩ := h
  subst he
  rw [Nat.and_pow_two_sub_one_eq_mod]
  exact Nat.mod_lt _ (Nat.pos_pow_of_pos e (by omega))

theorem initDo_inited {α : Type} (ncpu : Nat) (m : Map α) :
    ((m.initDo ncpu).inited : Bool) = true := by
  unfold Map.initDo
  split <;> simp_all

theorem initDo_of_inited {α : Type} (ncpu : Nat) (m : Map α) (h : m.inited = true) :
    m.initDo ncpu = m := by
  unfold Map.initDo
  simp [h]

theorem initDo_idem {α : Type} (ncpu : Nat) (m : Map α) :
    (m.initDo ncpu).initDo ncpu = m.initDo ncpu :=
  initDo_of_inited ncpu _ (initDo_inited ncpu m)

theorem initDo_cap {α : Type} (ncpu : Nat) (m : Map α) :
    (m.initDo ncpu).cap = m.cap := by
  unfold Map.initDo
  split <;> rfl

/-- Simulation invariant tying the sharded map to the single logical map:
the map is initialized with the computed shard count; every entry sits in
the shard its key routes to; keys are unique per shard and in the logical
map; per-key lookup and total size agree. -/
structure Inv {α : Type} (hf : String → Nat) (ncpu : Nat) (m : Map α)
    (L : List (String × α)) : Prop where
  inited : m.inited = true
  shards_eq : m.shards = shardCount ncpu
  len_maps : m.maps.length = m.shards
  pow2 : ∃ e, m.shards = 2 ^ e
  place : ∀ i, ∀ kv ∈ (m.shardAt i).data, hf kv.1 &&& (m.shards - 1) = i
  shard_nodup : ∀ i, ((m.shardAt i).data.map Prod.fst).Nodup
  log_nodup : (L.map Prod.fst).Nodup
  lookup_eq : ∀ k, assocGet (m.shardAt (hf k &&& (m.shards - 1))).data k = assocGet L k
  len_eq : (m.maps.map (fun sh => sh.data.length)).sum = L.length

theorem Inv.choose_lt {α : Type} {hf : String → Nat} {ncpu : Nat} {m : Map α}
    {L : List (String × α)} (H : Inv hf ncpu m L) (k : String) :
    Map.choose hf m k < m.shards :=
  and_mask_lt H.pow2

theorem Inv.initDo_eq {α : Type} {hf : String → Nat} {ncpu : Nat} {m : Map α}
    {L : List (String × α)} (H : Inv hf ncpu m L) : m.initDo ncpu = m :=
  initDo_of_inited ncpu m H.inited

theorem Inv.shardSeq_eq {α : Type} {hf : String → Nat} {ncpu : Nat} {m : Map α}
    {L : List (String × α)} (H : Inv hf ncpu m L) : m.shardSeq = m.maps := by
  unfold Map.shardSeq
  rw [← H.len_maps]
  exact range_map_getD m.maps (Rhh.new 0)

theorem Inv.len_out {α : Type} {hf : String → Nat} {ncpu : Nat} {m : Map α}
    {L : List (String × α)} (H : Inv hf ncpu m L) :
    (Map.len ncpu m).1 = L.length := by
  unfold Map.len
  rw [H.initDo_eq]
  show (m.shardSeq.map Rhh.len).sum = L.length
  rw [H.shardSeq_eq]
  simpa [Rhh.len] using H.len_eq

theorem inv_init {α : Type} (hf : String → Nat) (ncpu cap : Nat) :
    Inv hf ncpu ((Map.new (α := α) cap).initDo ncpu) [] := by
  have hni : (Map.new (α := α) cap).inited = false := rfl
  have hm : (Map.new (α := α) cap).initDo ncpu
      = { inited := true, cap := cap, shards := shardCount ncpu,
          maps := List.replicate (shardCount ncpu) (Rhh.new (cap / shardCount ncpu)) } := by
    unfold Map.initDo
    simp [hni, Map.new, shardCount]
  rw [hm]
  constructor
  · rfl
  · rfl
  · simp
  · exact shardCount_pow2 ncpu
  · intro i kv hkv
    unfold Map.shardAt at hkv
    by_cases hi : i < shardCount ncpu
    · rw [show (List.replicate (shardCount ncpu) (Rhh.new (α := α) (cap / shardCount ncpu))).getD i (Rhh.new 0) = Rhh.new (cap / shardCount ncpu) from getD_replicate_lt _ _ _ _ hi] at hkv
      simp [Rhh.new] at hkv
    · rw [getD_eq_default _ _ _ (by simpa using Nat.le_of_not_lt hi)] at hkv
      simp [Rhh.new] at hkv
  · intro i
    unfold Map.shardAt
    by_cases hi : i < shardCount ncpu
    · rw [getD_replicate_lt _ _ _ _ hi]
      simp [Rhh.new]
    · rw [getD_eq_default _ _ _ (by simpa using Nat.le_of_not_lt hi)]
      simp [Rhh.new]
  · simp
  · intro k
    unfold Map.shardAt
    by_cases hi : (hf k &&& (shardCount ncpu - 1)) < shardCount ncpu
    · rw [getD_replicate_lt _ _ _ _ hi]
      simp [Rhh.new, assocGet]
    · rw [getD_eq_default _ _ _ (by simpa using Nat.le_of_not_lt hi)]
      simp [Rhh.new, assocGet]
  · simp [Rhh.new]

/-- Replacing the routed shard's contents preserves the simulation invariant,
provided the new contents and the new logical map keep the per-key agreement,
uniqueness, and balance the total size. -/
theorem inv_update {α : Type} {hf : String → Nat} {ncpu : Nat} {m : Map α}
    {L L' : List (String × α)} (H : Inv hf ncpu m L) (key : String)
    (newData : List (String × α))
    (hmem : ∀ kv ∈ newData, kv ∈ (m.shardAt (Map.choose hf m key)).data ∨ kv.1 = key)
    (hnodup : (newData.map Prod.fst).Nodup)
    (hlnodup : (L'.map Prod.fst).Nodup)
    (hkey : assocGet newData key = assocGet L' key)
    (haway : ∀ k, k ≠ key →
      assocGet newData k = assocGet (m.shardAt (Map.choose hf m key)).data k)
    (hlaway : ∀ k, k ≠ key → assocGet L' k = assocGet L k)
    (hlen : newData.length + L.length
      = (m.shardAt (Map.choose hf m key)).data.length + L'.length) :
    Inv hf ncpu
      { m with maps := m.maps.set (Map.choose hf m key) ⟨(m.shardAt (Map.choose hf m key)).cap, newData⟩ } L' := by
  set c := Map.choose hf m key with hc
  set nsh : Rhh α := ⟨(m.shardAt c).cap, newData⟩ with hnsh
  have hclt : c < m.maps.length := by
    rw [H.len_maps]
    exact H.choose_lt key
  have hroutekey : hf key &&& (m.shards - 1) = c := rfl
  have hAt : ∀ i, ({ m with maps := m.maps.set c nsh } : Map α).shardAt i
      = if i = c then nsh else m.shardAt i := by
    intro i
    by_cases hi : i = c
    · subst hi
      simp only [Map.shardAt, if_pos rfl]
      exact getD_set_self _ _ _ _ hclt
    · simp only [Map.shardAt, if_neg hi]
      exact getD_set_ne _ _ _ _ _ (fun he => hi he.symm)
  constructor
  · exact H.inited
  · exact H.shards_eq
  · simpa using H.len_maps
  · exact H.pow2
  · intro i kv hkv
    rw [hAt i] at hkv
    by_cases hi : i = c
    · subst hi
      rw [if_pos rfl] at hkv
      simp only at hkv
      rcases hmem kv hkv with h1 | h1
      · exact H.place _ kv h1
      · rw [h1]
        exact hroutekey
    · rw [if_neg hi] at hkv
      exact H.place i kv hkv
  · intro i
    rw [hAt i]
    by_cases hi : i = c
    · rw [if_pos hi]
      exact hnodup
    · rw [if_neg hi]
      exact H.shard_nodup i
  · exact hlnodup
  · intro k
    show assocGet (({ m with maps := m.maps.set c ⟨(m.shardAt c).cap, newData⟩ } :
        Map α).shardAt (hf k &&& (m.shards - 1))).data k = assocGet L' k
    rw [hAt _]
    by_cases hk : k = key
    · subst hk
      rw [hroutekey, if_pos rfl]
      exact hkey
    · by_cases hr : hf k &&& (m.shards - 1) = c
      · rw [hr, if_pos rfl]
        show assocGet newData k = assocGet L' k
        rw [haway k hk, hlaway k hk]
        rw [← hr]
        exact H.lookup_eq k
      · rw [if_neg hr]
        rw [hlaway k hk]
        exact H.lookup_eq k
  · show ((m.maps.set c nsh).map (fun sh => sh.data.length)).sum = L'.length
    have hs := sum_map_set m.maps c nsh (Rhh.new 0) (fun sh => sh.data.length) hclt
    have hlen2 := H.len_eq
    beta_reduce at hs
    have he1 : nsh.data.length = newData.length := rfl
    rw [he1] at hs
    simp only [Map.shardAt] at hlen
    omega

theorem set_sim {α : Type} {hf : String → Nat} {ncpu : Nat} {m : Map α}
    {L : List (String × α)} (H : Inv hf ncpu m L) (key : String) (value : α) :
    (Map.set hf ncpu key value m).1 = (Log.set key value L).1 ∧
    Inv hf ncpu (Map.set hf ncpu key value m).2 (Log.set key value L).2 := by
  have hlk : assocGet (m.shardAt (Map.choose hf m key)).data key = assocGet L key :=
    H.lookup_eq key
  simp only [Map.set, Log.set, Rhh.set, H.initDo_eq]
  constructor
  · rw [assocSet_prev, assocSet_prev, hlk]
  · refine inv_update H key _ (fun kv hkv => mem_assocSet hkv) ?_ ?_ ?_ ?_ ?_ ?_
    · cases hget : assocGet (m.shardAt (Map.choose hf m key)).data key with
      | none =>
        rw [keys_assocSet_none value hget]
        have h1 := H.shard_nodup (Map.choose hf m key)
        have h2 : key ∉ (m.shardAt (Map.choose hf m key)).data.map Prod.fst :=
          (assocGet_eq_none_iff _ _).mp hget
        simp [List.nodup_append, h1, h2]
      | some p =>
        rw [keys_assocSet_some value (by simp [hget])]
        exact H.shard_nodup _
    · cases hget : assocGet L key with
      | none =>
        rw [keys_assocSet_none value hget]
        have h2 : key ∉ L.map Prod.fst := (assocGet_eq_none_iff _ _).mp hget
        simp [List.nodup_append, H.log_nodup, h2]
      | some p =>
        rw [keys_assocSet_some value (by simp [hget])]
        exact H.log_nodup
    · rw [assocGet_assocSet_self, assocGet_assocSet_self]
    · intro k hk
      exact assocGet_assocSet_ne _ _ _ _ hk
    · intro k hk
      exact assocGet_assocSet_ne _ _ _ _ hk
    · rw [length_assocSet, length_assocSet, hlk]
      cases assocGet L key <;> simp <;> omega

theorem get_sim {α : Type} {hf : String → Nat} {ncpu : Nat} {m : Map α}
    {L : List (String × α)} (H : Inv hf ncpu m L) (key : String) :
    (Map.get hf ncpu key m).1 = Log.get key L ∧ (Map.get hf ncpu key m).2 = m := by
  have hlk : assocGet (m.shardAt (Map.choose hf m key)).data key = assocGet L key :=
    H.lookup_eq key
  simp only [Map.get, Log.get, Rhh.get, H.initDo_eq]
  constructor
  · rw [hlk]
  · trivial

theorem delete_sim {α : Type} {hf : String → Nat} {ncpu : Nat} {m : Map α}
    {L : List (String × α)} (H : Inv hf ncpu m L) (key : String) :
    (Map.delete hf ncpu key m).1 = (Log.delete key L).1 ∧
    Inv hf ncpu (Map.delete hf ncpu key m).2 (Log.delete key L).2 := by
  have hlk : assocGet (m.shardAt (Map.choose hf m key)).data key = assocGet L key :=
    H.lookup_eq key
  simp only [Map.delete, Log.delete, Rhh.delete, H.initDo_eq]
  constructor
  · rw [assocDelete_prev, assocDelete_prev, hlk]
  · refine inv_update H key _
      (fun kv hkv => Or.inl ((assocDelete_sublist _ _).mem hkv)) ?_ ?_ ?_ ?_ ?_ ?_
    · rw [keys_assocDelete]
      exact (H.shard_nodup _).erase key
    · rw [keys_assocDelete]
      exact H.log_nodup.erase key
    · rw [assocGet_assocDelete_self (H.shard_nodup _),
        assocGet_assocDelete_self H.log_nodup]
    · intro k hk
      exact assocGet_assocDelete_ne _ _ _ hk
    · intro k hk
      exact assocGet_assocDelete_ne _ _ _ hk
    · cases hget : assocGet L key with
      | none =>
        rw [assocDelete_none hget, assocDelete_none (hlk.trans hget)]
      | some p =>
        have h1 := length_assocDelete_some (l := (m.shardAt (Map.choose hf m key)).data)
          (k := key) (by simp [hlk, hget])
        have h2 := length_assocDelete_some (l := L) (k := key) (by simp [hget])
        omega

theorem inv_of_empty {α : Type} (hf : String → Nat) (ncpu : Nat) (m : Map α)
    (h1 : m.inited = true) (h2 : m.shards = shardCount ncpu)
    (h3 : m.maps.length = m.shards) (h4 : ∀ i, (m.shardAt i).data = []) :
    Inv hf ncpu m [] := by
  constructor
  · exact h1
  · exact h2
  · exact h3
  · exact ⟨_, h2.trans (shardCount_pow2 ncpu).choose_spec⟩
  · intro i kv hkv
    rw [h4 i] at hkv
    simp at hkv
  · intro i
    rw [h4 i]
    simp
  · simp
  · intro k
    rw [h4 _]
  · have hz : ∀ x ∈ m.maps.map (fun sh => sh.data.length), x = 0 := by
      intro x hx
      rw [List.mem_map] at hx
      obtain ⟨sh, hsh, hx⟩ := hx
      rw [List.mem_iff_getElem] at hsh
      obtain ⟨i, hi, hsh⟩ := hsh
      have hsh2 : m.shardAt i = sh := by
        unfold Map.shardAt
        rw [List.getD_eq_getElem _ _ hi, hsh]
      rw [← hx, ← hsh2, h4 i]
      rfl
    simp [List.sum_eq_zero hz]

theorem len_sim {α : Type} {hf : String → Nat} {ncpu : Nat} {m : Map α}
    {L : List (String × α)} (H : Inv hf ncpu m L) :
    (Map.len ncpu m).1 = L.length ∧ (Map.len ncpu m).2 = m := by
  refine ⟨H.len_out, ?_⟩
  unfold Map.len
  rw [H.initDo_eq]

theorem clear_state {α : Type} {hf : String → Nat} {ncpu : Nat} {m : Map α}
    {L : List (String × α)} (H : Inv hf ncpu m L) :
    Map.clear ncpu m
      = { m with maps := List.replicate m.shards (Rhh.new (m.cap / m.shards)) } := by
  unfold Map.clear
  rw [H.initDo_eq]
  show ({ m with maps := (List.range m.shards).foldl (fun l i => l.set i (Rhh.new (m.cap / m.shards))) m.maps } : Map α) = _
  rw [← H.len_maps, foldl_set_range_replicate, H.len_maps]

theorem clear_sim {α : Type} {hf : String → Nat} {ncpu : Nat} {m : Map α}
    {L : List (String × α)} (H : Inv hf ncpu m L) :
    Inv hf ncpu (Map.clear ncpu m) [] := by
  rw [clear_state H]
  refine inv_of_empty hf ncpu _ H.inited H.shards_eq (by simpa using H.len_maps) ?_
  intro i
  show ((List.replicate m.shards (Rhh.new (m.cap / m.shards))).getD i (Rhh.new 0)).data = []
  by_cases hi : i < m.shards
  · rw [getD_replicate_lt _ _ _ _ hi]
    rfl
  · rw [getD_eq_default _ _ _ (by simpa using Nat.le_of_not_lt hi)]
    rfl

theorem set_initDo {α : Type} (hf : String → Nat) (ncpu : Nat) (key : String)
    (value : α) (m : Map α) :
    Map.set hf ncpu key value (m.initDo ncpu) = Map.set hf ncpu key value m := by
  simp only [Map.set, initDo_idem]

theorem get_initDo {α : Type} (hf : String → Nat) (ncpu : Nat) (key : String)
    (m : Map α) :
    Map.get hf ncpu key (m.initDo ncpu) = Map.get hf ncpu key m := by
  simp only [Map.get, initDo_idem]

theorem delete_initDo {α : Type} (hf : String → Nat) (ncpu : Nat) (key : String)
    (m : Map α) :
    Map.delete hf ncpu key (m.initDo ncpu) = Map.delete hf ncpu key m := by
  simp only [Map.delete, initDo_idem]

theorem setAccept_initDo {α : Type} (hf : String → Nat) (ncpu : Nat) (key : String)
    (value : α) (accept : Option (Option α → Bool → Bool)) (m : Map α) :
    Map.setAccept hf ncpu key value accept (m.initDo ncpu)
      = Map.setAccept hf ncpu key value accept m := by
  simp only [Map.setAccept, initDo_idem]

theorem deleteAccept_initDo {α : Type} (hf : String → Nat) (ncpu : Nat) (key : String)
    (accept : Option (Option α → Bool → Bool)) (m : Map α) :
    Map.deleteAccept hf ncpu key accept (m.initDo ncpu)
      = Map.deleteAccept hf ncpu key accept m := by
  simp only [Map.deleteAccept, initDo_idem]

theorem len_initDo {α : Type} (ncpu : Nat) (m : Map α) :
    Map.len ncpu (m.initDo ncpu) = Map.len ncpu m := by
  simp only [Map.len, initDo_idem]

theorem clear_initDo {α : Type} (ncpu : Nat) (m : Map α) :
    Map.clear ncpu (m.initDo ncpu) = Map.clear ncpu m := by
  simp only [Map.clear, initDo_idem]

theorem range_initDo {α σ : Type} (ncpu : Nat) (f : σ → String → α → σ × Bool)
    (s : σ) (m : Map α) :
    Map.range ncpu f s (m.initDo ncpu) = Map.range ncpu f s m := by
  simp only [Map.range, initDo_idem]

/-- An accepting callback commits: SetAccept behaves exactly like Set
(on an initialized map). -/
theorem setAccept_accepted {α : Type} (hf : String → Nat) (ncpu : Nat) (m : Map α)
    (key : String) (value : α) (f : Option α → Bool → Bool) (hin : m.inited = true)
    (hacc : f ((m.shardAt (Map.choose hf m key)).get key)
      ((m.shardAt (Map.choose hf m key)).get key).isSome = true) :
    Map.setAccept hf ncpu key value (some f) m = Map.set hf ncpu key value m := by
  have hid := initDo_of_inited ncpu m hin
  have hacc2 : f (assocSet (m.shardAt (Map.choose hf m key)).data key value).2
      ((assocSet (m.shardAt (Map.choose hf m key)).data key value).2).isSome = true := by
    rw [assocSet_prev]
    exact hacc
  simp only [Map.setAccept, Map.set, Rhh.set, hid, hacc2, if_true]

/-- A rejecting callback undoes the tentative set exactly: SetAccept returns
(nil, false) and leaves the initialized map bit-for-bit unchanged. -/
theorem setAccept_reject {α : Type} (hf : String → Nat) (ncpu : Nat) (m : Map α)
    (key : String) (value : α) (f : Option α → Bool → Bool) (hin : m.inited = true)
    (hrej : f ((m.shardAt (Map.choose hf m key)).get key)
      ((m.shardAt (Map.choose hf m key)).get key).isSome = false) :
    Map.setAccept hf ncpu key value (some f) m = ((none, false), m) := by
  have hid := initDo_of_inited ncpu m hin
  have hrej2 : f (assocSet (m.shardAt (Map.choose hf m key)).data key value).2
      ((assocSet (m.shardAt (Map.choose hf m key)).data key value).2).isSome = false := by
    rw [assocSet_prev]
    exact hrej
  simp only [Map.setAccept, Rhh.set, hid, hrej2, Bool.false_eq_true, if_false]
  cases hget : assocGet (m.shardAt (Map.choose hf m key)).data key with
  | none =>
    rw [show (assocSet (m.shardAt (Map.choose hf m key)).data key value).2 = none from (assocSet_prev _ _ _).trans hget]
    simp only [Rhh.delete, assocDelete_assocSet_none value hget]
    show (_, ({ m with maps := m.maps.set (Map.choose hf m key) (m.maps.getD (Map.choose hf m key) (Rhh.new 0)) } : Map α)) = _
    rw [set_getD_self]
  | some p =>
    rw [show (assocSet (m.shardAt (Map.choose hf m key)).data key value).2 = some p from (assocSet_prev _ _ _).trans hget]
    simp only [Rhh.set, assocSet_assocSet_some value hget]
    show (_, ({ m with maps := m.maps.set (Map.choose hf m key) (m.maps.getD (Map.choose hf m key) (Rhh.new 0)) } : Map α)) = _
    rw [set_getD_self]

theorem log_setAccept_accepted {α : Type} (L : List (String × α)) (key : String)
    (value : α) (f : Option α → Bool → Bool)
    (hacc : f (assocGet L key) (assocGet L key).isSome = true) :
    Log.setAccept key value (some f) L = Log.set key value L := by
  have hacc2 : f (assocSet L key value).2 ((assocSet L key value).2).isSome = true := by
    rw [assocSet_prev]
    exact hacc
  simp only [Log.setAccept, Log.set, hacc2, if_true]

theorem log_setAccept_reject {α : Type} (L : List (String × α)) (key : String)
    (value : α) (f : Option α → Bool → Bool)
    (hrej : f (assocGet L key) (assocGet L key).isSome = false) :
    Log.setAccept key value (some f) L = ((none, false), L) := by
  have hrej2 : f (assocSet L key value).2 ((assocSet L key value).2).isSome = false := by
    rw [assocSet_prev]
    exact hrej
  simp only [Log.setAccept, hrej2, Bool.false_eq_true, if_false]
  cases hget : assocGet L key with
  | none =>
    rw [show (assocSet L key value).2 = none from (assocSet_prev _ _ _).trans hget]
    rw [assocDelete_assocSet_none value hget]
  | some p =>
    rw [show (assocSet L key value).2 = some p from (assocSet_prev _ _ _).trans hget]
    simp only [assocSet_assocSet_some value hget]

theorem setAcc_sim {α : Type} {hf : String → Nat} {ncpu : Nat} {m : Map α}
    {L : List (String × α)} (H : Inv hf ncpu m L) (key : String) (value : α)
    (accept : Option (Option α → Bool → Bool)) :
    (Map.setAccept hf ncpu key value accept m).1 = (Log.setAccept key value accept L).1 ∧
    Inv hf ncpu (Map.setAccept hf ncpu key value accept m).2
      (Log.setAccept key value accept L).2 := by
  have hlk : (m.shardAt (Map.choose hf m key)).get key = assocGet L key :=
    H.lookup_eq key
  cases accept with
  | none => exact set_sim H key value
  | some f =>
    by_cases hacc : f (assocGet L key) (assocGet L key).isSome = true
    · rw [setAccept_accepted hf ncpu m key value f H.inited (by rw [hlk]; exact hacc),
        log_setAccept_accepted L key value f hacc]
      exact set_sim H key value
    · rw [Bool.not_eq_true] at hacc
      rw [setAccept_reject hf ncpu m key value f H.inited (by rw [hlk]; exact hacc),
        log_setAccept_reject L key value f hacc]
      exact ⟨rfl, H⟩

/-- An accepting callback commits: DeleteAccept behaves exactly like Delete
(on an initialized map). -/
theorem deleteAccept_accepted {α : Type} (hf : String → Nat) (ncpu : Nat) (m : Map α)
    (key : String) (f : Option α → Bool → Bool) (hin : m.inited = true)
    (hacc : f ((m.shardAt (Map.choose hf m key)).get key)
      ((m.shardAt (Map.choose hf m key)).get key).isSome = true) :
    Map.deleteAccept hf ncpu key (some f) m = Map.delete hf ncpu key m := by
  have hid := initDo_of_inited ncpu m hin
  have hacc2 : f (assocDelete (m.shardAt (Map.choose hf m key)).data key).2
      ((assocDelete (m.shardAt (Map.choose hf m key)).data key).2).isSome = true := by
    rw [assocDelete_prev]
    exact hacc
  simp only [Map.deleteAccept, Map.delete, Rhh.delete, hid, hacc2, if_true]

/-- A rejecting callback on an absent key: DeleteAccept returns (nil, false)
and the initialized map is unchanged. -/
theorem deleteAccept_reject_none {α : Type} (hf : String → Nat) (ncpu : Nat) (m : Map α)
    (key : String) (f : Option α → Bool → Bool) (hin : m.inited = true)
    (hget : (m.shardAt (Map.choose hf m key)).get key = none)
    (hrej : f none false = false) :
    Map.deleteAccept hf ncpu key (some f) m = ((none, false), m) := by
  have hid := initDo_of_inited ncpu m hin
  have hget2 : assocGet (m.shardAt (Map.choose hf m key)).data key = none := hget
  have hrej2 : f (assocDelete (m.shardAt (Map.choose hf m key)).data key).2
      ((assocDelete (m.shardAt (Map.choose hf m key)).data key).2).isSome = false := by
    rw [assocDelete_prev, hget2]
    exact hrej
  simp only [Map.deleteAccept, Rhh.delete, hid, hrej2, Bool.false_eq_true, if_false]
  rw [show (assocDelete (m.shardAt (Map.choose hf m key)).data key).2 = none from (assocDelete_prev _ _).trans hget2]
  rw [assocDelete_none hget2]
  show (_, ({ m with maps := m.maps.set (Map.choose hf m key) (m.maps.getD (Map.choose hf m key) (Rhh.new 0)) } : Map α)) = _
  rw [set_getD_self]

/-- A rejecting callback on a present key: DeleteAccept returns (nil, false)
and re-inserts the deleted entry into the routed shard. -/
theorem deleteAccept_reject_some {α : Type} (hf : String → Nat) (ncpu : Nat) (m : Map α)
    (key : String) (f : Option α → Bool → Bool) (p : α) (hin : m.inited = true)
    (hget : (m.shardAt (Map.choose hf m key)).get key = some p)
    (hrej : f (some p) true = false) :
    Map.deleteAccept hf ncpu key (some f) m
      = ((none, false), { m with maps := m.maps.set (Map.choose hf m key) ⟨(m.shardAt (Map.choose hf m key)).cap, (assocSet (assocDelete (m.shardAt (Map.choose hf m key)).data key).1 key p).1⟩ }) := by
  have hid := initDo_of_inited ncpu m hin
  have hget2 : assocGet (m.shardAt (Map.choose hf m key)).data key = some p := hget
  have hrej2 : f (assocDelete (m.shardAt (Map.choose hf m key)).data key).2
      ((assocDelete (m.shardAt (Map.choose hf m key)).data key).2).isSome = false := by
    rw [assocDelete_prev, hget2]
    exact hrej
  simp only [Map.deleteAccept, Rhh.delete, hid, hrej2, Bool.false_eq_true, if_false]
  rw [show (assocDelete (m.shardAt (Map.choose hf m key)).data key).2 = some p from (assocDelete_prev _ _).trans hget2]
  simp only [Rhh.set]

theorem log_deleteAccept_accepted {α : Type} (L : List (String × α)) (key : String)
    (f : Option α → Bool → Bool)
    (hacc : f (assocGet L key) (assocGet L key).isSome = true) :
    Log.deleteAccept key (some f) L = Log.delete key L := by
  have hacc2 : f (assocDelete L key).2 ((assocDelete L key).2).isSome = true := by
    rw [assocDelete_prev]
    exact hacc
  simp only [Log.deleteAccept, Log.delete, hacc2, if_true]

theorem log_deleteAccept_reject_none {α : Type} (L : List (String × α)) (key : String)
    (f : Option α → Bool → Bool) (hget : assocGet L key = none)
    (hrej : f none false = false) :
    Log.deleteAccept key (some f) L = ((none, false), L) := by
  have hrej2 : f (assocDelete L key).2 ((assocDelete L key).2).isSome = false := by
    rw [assocDelete_prev, hget]
    exact hrej
  simp only [Log.deleteAccept, hrej2, Bool.false_eq_true, if_false]
  rw [show (assocDelete L key).2 = none from (assocDelete_prev _ _).trans hget]
  rw [assocDelete_none hget]

theorem log_deleteAccept_reject_some {α : Type} (L : List (String × α)) (key : String)
    (f : Option α → Bool → Bool) (p : α) (hget : assocGet L key = some p)
    (hrej : f (some p) true = false) :
    Log.deleteAccept key (some f) L = ((none, false), (assocSet (assocDelete L key).1 key p).1) := by
  have hrej2 : f (assocDelete L key).2 ((assocDelete L key).2).isSome = false := by
    rw [assocDelete_prev, hget]
    exact hrej
  simp only [Log.deleteAccept, hrej2, Bool.false_eq_true, if_false]
  rw [show (assocDelete L key).2 = some p from (assocDelete_prev _ _).trans hget]

theorem delAcc_sim {α : Type} {hf : String → Nat} {ncpu : Nat} {m : Map α}
    {L : List (String × α)} (H : Inv hf ncpu m L) (key : String)
    (accept : Option (Option α → Bool → Bool)) :
    (Map.deleteAccept hf ncpu key accept m).1 = (Log.deleteAccept key accept L).1 ∧
    Inv hf ncpu (Map.deleteAccept hf ncpu key accept m).2
      (Log.deleteAccept key accept L).2 := by
  have hlk : (m.shardAt (Map.choose hf m key)).get key = assocGet L key :=
    H.lookup_eq key
  cases accept with
  | none => exact delete_sim H key
  | some f =>
    by_cases hacc : f (assocGet L key) (assocGet L key).isSome = true
    · rw [deleteAccept_accepted hf ncpu m key f H.inited (by rw [hlk]; exact hacc),
        log_deleteAccept_accepted L key f hacc]
      exact delete_sim H key
    · rw [Bool.not_eq_true] at hacc
      cases hget : assocGet L key with
      | none =>
        rw [deleteAccept_reject_none hf ncpu m key f H.inited (hlk.trans hget)
            (by rw [hget] at hacc; simpa using hacc),
          log_deleteAccept_reject_none L key f hget (by rw [hget] at hacc; simpa using hacc)]
        exact ⟨rfl, H⟩
      | some p =>
        rw [deleteAccept_reject_some hf ncpu m key f p H.inited (hlk.trans hget)
            (by rw [hget] at hacc; simpa using hacc),
          log_deleteAccept_reject_some L key f p hget (by rw [hget] at hacc; simpa using hacc)]
        refine ⟨rfl, ?_⟩
        have hlk2 : assocGet (m.shardAt (Map.choose hf m key)).data key = assocGet L key :=
          hlk
        have hdget : assocGet (assocDelete (m.shardAt (Map.choose hf m key)).data key).1 key = none :=
          assocGet_assocDelete_self (H.shard_nodup _)
        have hldget : assocGet (assocDelete L key).1 key = none :=
          assocGet_assocDelete_self H.log_nodup
        show Inv hf ncpu ({ m with maps := m.maps.set (Map.choose hf m key) ⟨(m.shardAt (Map.choose hf m key)).cap, (assocSet (assocDelete (m.shardAt (Map.choose hf m key)).data key).1 key p).1⟩ }) ((assocSet (assocDelete L key).1 key p).1)
        refine inv_update H key _ ?_ ?_ ?_ ?_ ?_ ?_ ?_
        · intro kv hkv
          rcases mem_assocSet hkv with h1 | h1
          · exact Or.inl ((assocDelete_sublist _ _).mem h1)
          · exact Or.inr h1
        · rw [keys_assocSet_none p hdget, keys_assocDelete]
          have h1 := (H.shard_nodup (Map.choose hf m key)).erase key
          have h2 := (H.shard_nodup (Map.choose hf m key)).not_mem_erase (a := key)
          simp [List.nodup_append, h1, h2]
        · rw [keys_assocSet_none p hldget, keys_assocDelete]
          have h1 := H.log_nodup.erase key
          have h2 := H.log_nodup.not_mem_erase (a := key)
          simp [List.nodup_append, h1, h2]
        · rw [assocGet_assocSet_self, assocGet_assocSet_self]
        · intro k hk
          rw [assocGet_assocSet_ne _ _ _ _ hk, assocGet_assocDelete_ne _ _ _ hk]
        · intro k hk
          rw [assocGet_assocSet_ne _ _ _ _ hk, assocGet_assocDelete_ne _ _ _ hk]
        · have hs1 := length_assocDelete_some
            (l := (m.shardAt (Map.choose hf m key)).data) (k := key)
            (by simp [hlk2, hget])
          have hs2 := length_assocDelete_some (l := L) (k := key) (by simp [hget])
          have hn1 : (assocSet (assocDelete (m.shardAt (Map.choose hf m key)).data key).1 key p).1.length = (assocDelete (m.shardAt (Map.choose hf m key)).data key).1.length + 1 := by
            rw [length_assocSet, hdget]
            simp
          have hn2 : (assocSet (assocDelete L key).1 key p).1.length = (assocDelete L key).1.length + 1 := by
            rw [length_assocSet, hldget]
            simp
          omega

theorem runOp_sim {α : Type} {hf : String → Nat} {ncpu : Nat} {m : Map α}
    {L : List (String × α)} (H : Inv hf ncpu m L) (op : Op α) :
    (Map.runOp hf ncpu op m).1 = (Log.runOp op L).1 ∧
    Inv hf ncpu (Map.runOp hf ncpu op m).2 (Log.runOp op L).2 := by
  cases op with
  | set k v =>
    obtain ⟨h1, h2⟩ := set_sim H k v
    exact ⟨by simp [Map.runOp, Log.runOp, h1], h2⟩
  | get k =>
    obtain ⟨h1, h2⟩ := get_sim H k
    refine ⟨by simp [Map.runOp, Log.runOp, h1], ?_⟩
    show Inv hf ncpu (Map.get hf ncpu k m).2 L
    rw [h2]
    exact H
  | del k =>
    obtain ⟨h1, h2⟩ := delete_sim H k
    exact ⟨by simp [Map.runOp, Log.runOp, h1], h2⟩
  | setAcc k v a =>
    obtain ⟨h1, h2⟩ := setAcc_sim H k v a
    exact ⟨by simp [Map.runOp, Log.runOp, h1], h2⟩
  | delAcc k a =>
    obtain ⟨h1, h2⟩ := delAcc_sim H k a
    exact ⟨by simp [Map.runOp, Log.runOp, h1], h2⟩
  | len =>
    obtain ⟨h1, h2⟩ := len_sim H
    refine ⟨by simp [Map.runOp, Log.runOp, h1], ?_⟩
    show Inv hf ncpu (Map.len ncpu m).2 L
    rw [h2]
    exact H
  | clear =>
    exact ⟨rfl, clear_sim H⟩

theorem run_sim {α : Type} {hf : String → Nat} {ncpu : Nat} (ops : List (Op α))
    {m : Map α} {L : List (String × α)} (H : Inv hf ncpu m L) :
    (Map.run hf ncpu ops m).1 = (Log.run ops L).1 ∧
    Inv hf ncpu (Map.run hf ncpu ops m).2 (Log.run ops L).2 := by
  induction ops generalizing m L with
  | nil => exact ⟨rfl, H⟩
  | cons op rest ih =>
    obtain ⟨h1, h2⟩ := runOp_sim H op
    obtain ⟨h3, h4⟩ := ih h2
    constructor
    · show (Map.runOp hf ncpu op m).1 :: (Map.run hf ncpu rest (Map.runOp hf ncpu op m).2).1
        = (Log.runOp op L).1 :: (Log.run rest (Log.runOp op L).2).1
      rw [h1, h3]
    · exact h4

theorem runOp_inited {α : Type} (hf : String → Nat) (ncpu : Nat) (op : Op α)
    (m : Map α) : ((Map.runOp hf ncpu op m).2).inited = true := by
  cases op with
  | set k v => exact initDo_inited ncpu m
  | get k => exact initDo_inited ncpu m
  | del k => exact initDo_inited ncpu m
  | setAcc k v a =>
    show (Map.setAccept hf ncpu k v a m).2.inited = true
    unfold Map.setAccept
    cases a with
    | none => exact initDo_inited ncpu m
    | some f =>
      simp only
      split
      · exact initDo_inited ncpu m
      · split
        · exact initDo_inited ncpu m
        · exact initDo_inited ncpu m
  | delAcc k a =>
    show (Map.deleteAccept hf ncpu k a m).2.inited = true
    unfold Map.deleteAccept
    cases a with
    | none => exact initDo_inited ncpu m
    | some f =>
      simp only
      split
      · exact initDo_inited ncpu m
      · split
        · exact initDo_inited ncpu m
        · exact initDo_inited ncpu m
  | len => exact initDo_inited ncpu m
  | clear => exact initDo_inited ncpu m

theorem runOp_initDo {α : Type} (hf : String → Nat) (ncpu : Nat) (op : Op α)
    (m : Map α) :
    Map.runOp hf ncpu op (m.initDo ncpu) = Map.runOp hf ncpu op m := by
  cases op with
  | set k v => simp only [Map.runOp, set_initDo]
  | get k => simp only [Map.runOp, get_initDo]
  | del k => simp only [Map.runOp, delete_initDo]
  | setAcc k v a => simp only [Map.runOp, setAccept_initDo]
  | delAcc k a => simp only [Map.runOp, deleteAccept_initDo]
  | len => simp only [Map.runOp, len_initDo]
  | clear => simp only [Map.runOp, clear_initDo]

theorem run_inited {α : Type} (hf : String → Nat) (ncpu : Nat) (ops : List (Op α))
    (m : Map α) (h : m.inited = true) :
    ((Map.run hf ncpu ops m).2).inited = true := by
  induction ops generalizing m with
  | nil => exact h
  | cons op rest ih => exact ih _ (runOp_inited hf ncpu op m)

theorem run_initDo {α : Type} (hf : String → Nat) (ncpu : Nat) (ops : List (Op α))
    (m : Map α) :
    (Map.run hf ncpu ops (m.initDo ncpu)).1 = (Map.run hf ncpu ops m).1 ∧
    (Map.run hf ncpu ops (m.initDo ncpu)).2 = ((Map.run hf ncpu ops m).2).initDo ncpu := by
  cases ops with
  | nil => exact ⟨rfl, rfl⟩
  | cons op rest =>
    have h1 : Map.run hf ncpu (op :: rest) (m.initDo ncpu)
        = Map.run hf ncpu (op :: rest) m := by
      show (let r := Map.runOp hf ncpu op (m.initDo ncpu);
        let rr := Map.run hf ncpu rest r.2; (r.1 :: rr.1, rr.2)) = _
      rw [runOp_initDo]
      rfl
    rw [h1]
    refine ⟨rfl, ?_⟩
    have h2 : ((Map.run hf ncpu (op :: rest) m).2).inited = true :=
      run_inited hf ncpu rest _ (runOp_inited hf ncpu op m)
    rw [initDo_of_inited _ _ h2]

/-- Simulation from a fresh map: the trace of any operation sequence on the
sharded map equals the trace on the single logical map, and the final
(initialized) sharded state still simulates the final logical state. -/
theorem run_new {α : Type} (hf : String → Nat) (ncpu cap : Nat) (ops : List (Op α)) :
    (Map.run hf ncpu ops (Map.new cap)).1 = (Log.run ops []).1 ∧
    Inv hf ncpu (((Map.run hf ncpu ops (Map.new cap)).2).initDo ncpu)
      (Log.run ops ([] : List (String × α))).2 := by
  obtain ⟨h1, h2⟩ := run_sim ops (inv_init hf ncpu cap)
  obtain ⟨h3, h4⟩ := run_initDo hf ncpu ops (Map.new (α := α) cap)
  exact ⟨h3 ▸ h1, h4 ▸ h2⟩

theorem assocRange_collect {α : Type} (l s : List (String × α)) :
    assocRange (fun s k v => (s ++ [(k, v)], true)) l s = (s ++ l, true) := by
  induction l generalizing s with
  | nil => simp [assocRange]
  | cons kv rest ih =>
    obtain ⟨k, v⟩ := kv
    simp [assocRange, ih]

theorem rangeShards_collect {α : Type} (shs : List (Rhh α)) (s : List (String × α)) :
    rangeShards (fun s k v => (s ++ [(k, v)], true)) shs s
      = s ++ (shs.map (fun sh => sh.data)).flatten := by
  induction shs generalizing s with
  | nil => simp [rangeShards]
  | cons sh rest ih =>
    simp [rangeShards, assocRange_collect, ih]

theorem rangeCollect_eq_entries {α : Type} (ncpu : Nat) (m : Map α) :
    Map.rangeCollect ncpu m = Map.entries ncpu m := by
  unfold Map.rangeCollect Map.range Map.entries
  show rangeShards (fun s k v => (s ++ [(k, v)], true)) ((m.initDo ncpu).shardSeq) []
    = (((m.initDo ncpu).shardSeq).map (fun sh => sh.data)).flatten
  rw [rangeShards_collect]
  rfl

theorem log_rangeCollect_eq {α : Type} (L : List (String × α)) :
    Log.rangeCollect L = L := by
  unfold Log.rangeCollect
  rw [assocRange_collect]
  rfl

/-- Under the invariant, an entry is visited by a full Range of the sharded
map exactly when it is an entry of the logical map. -/
theorem entries_mem_iff {α : Type} {hf : String → Nat} {ncpu : Nat} {m : Map α}
    {L : List (String × α)} (H : Inv hf ncpu m L) (k : String) (v : α) :
    (k, v) ∈ Map.entries ncpu m ↔ (k, v) ∈ L := by
  unfold Map.entries
  rw [H.initDo_eq, H.shardSeq_eq]
  rw [List.mem_flatten]
  constructor
  · rintro ⟨l, hl, hkv⟩
    rw [List.mem_map] at hl
    obtain ⟨sh, hsh, rfl⟩ := hl
    rw [List.mem_iff_getElem] at hsh
    obtain ⟨i, hi, rfl⟩ := hsh
    have hAt : m.shardAt i = m.maps[i] := by
      unfold Map.shardAt
      rw [List.getD_eq_getElem _ _ hi]
    have hplace := H.place i (k, v) (by rw [hAt]; exact hkv)
    have hget : assocGet (m.shardAt (hf k &&& (m.shards - 1))).data k = some v := by
      rw [hplace, hAt]
      exact assocGet_of_mem_nodup (by rw [← hAt]; exact hAt ▸ (hAt ▸ H.shard_nodup i)) hkv
    rw [H.lookup_eq k] at hget
    exact mem_of_assocGet hget
  · intro hkv
    have hget : assocGet L k = some v := assocGet_of_mem_nodup H.log_nodup hkv
    have hget2 : assocGet (m.shardAt (hf k &&& (m.shards - 1))).data k = some v :=
      (H.lookup_eq k).trans hget
    have hlt : hf k &&& (m.shards - 1) < m.maps.length := by
      rw [H.len_maps]
      exact H.choose_lt k
    refine ⟨(m.shardAt (hf k &&& (m.shards - 1))).data, ?_, mem_of_assocGet hget2⟩
    rw [List.mem_map]
    refine ⟨m.shardAt (hf k &&& (m.shards - 1)), ?_, rfl⟩
    rw [List.mem_iff_getElem]
    refine ⟨hf k &&& (m.shards - 1), hlt, ?_⟩
    unfold Map.shardAt
    rw [List.getD_eq_getElem _ _ hlt]

/-- A visitor that stops on its first invocation is invoked exactly once, on
some entry of some shard: the shard loop stops as soon as the wrapped visitor
returns false. -/
theorem rangeShards_stop_once {α σ : Type} (g : σ → String → α → σ)
    (shs : List (Rhh α)) (s0 : σ) (n : Nat)
    (h : 1 ≤ (shs.map Rhh.len).sum) :
    ∃ kv : String × α, kv ∈ (shs.map (fun sh => sh.data)).flatten ∧
      rangeShards (fun sn k v => ((g sn.1 k v, sn.2 + 1), false)) shs (s0, n)
        = (g s0 kv.1 kv.2, n + 1) := by
  induction shs with
  | nil => simp at h
  | cons sh rest ih =>
    cases hdata : sh.data with
    | nil =>
      have hlen : (rest.map Rhh.len).sum ≥ 1 := by
        have : Rhh.len sh = 0 := by
          unfold Rhh.len
          rw [hdata]
          rfl
        simp [this] at h
        simpa using h
      obtain ⟨kv, hkv, hres⟩ := ih hlen
      refine ⟨kv, by simp [hdata, hkv], ?_⟩
      show (let r := assocRange _ sh.data (s0, n);
        if r.2 then rangeShards _ rest r.1 else r.1) = _
      rw [hdata]
      exact hres
    | cons kv0 tail =>
      refine ⟨kv0, by simp [hdata], ?_⟩
      show (let r := assocRange _ sh.data (s0, n);
        if r.2 then rangeShards _ rest r.1 else r.1) = _
      rw [hdata]
      rfl

/-- Inserting fresh, pairwise-distinct keys into the logical map appends
their entries in order. -/
theorem log_run_sets {α : Type} (f : String → α) :
    ∀ (ks : List String) (L : List (String × α)),
    (∀ k ∈ ks, k ∉ L.map Prod.fst) → ks.Nodup →
    ((Log.run (ks.map fun k => Op.set k (f k)) L).2).map Prod.fst
      = L.map Prod.fst ++ ks := by
  intro ks
  induction ks with
  | nil => simp [Log.run]
  | cons k0 rest ih =>
    intro L hfresh hnd
    rw [List.nodup_cons] at hnd
    have hk0 : k0 ∉ L.map Prod.fst := hfresh k0 (by simp)
    have hget : assocGet L k0 = none := (assocGet_eq_none_iff _ _).mpr hk0
    show ((Log.run (rest.map fun k => Op.set k (f k)) (Log.set k0 (f k0) L).2).2).map Prod.fst = _
    have hkeys : ((Log.set k0 (f k0) L).2).map Prod.fst = L.map Prod.fst ++ [k0] := by
      show ((assocSet L k0 (f k0)).1).map Prod.fst = _
      exact keys_assocSet_none (f k0) hget
    rw [ih (Log.set k0 (f k0) L).2 ?_ hnd.2, hkeys]
    · simp
    · intro k hk
      rw [hkeys]
      simp only [List.mem_append, List.mem_singleton]
      rintro (h1 | h1)
      · exact hfresh k (by simp [hk]) h1
      · exact hnd.1 (h1 ▸ hk)

/-- Deleting distinct, present keys shrinks the logical map by one entry
per key. -/
theorem log_run_dels {α : Type} :
    ∀ (ms : List String) (L : List (String × α)),
    (L.map Prod.fst).Nodup → ms.Nodup → (∀ k ∈ ms, k ∈ L.map Prod.fst) →
    ((Log.run (ms.map fun k => Op.del k) L).2).length + ms.length = L.length := by
  intro ms
  induction ms with
  | nil => simp [Log.run]
  | cons m0 rest ih =>
    intro L hLnd hnd hsub
    rw [List.nodup_cons] at hnd
    have hm0 : m0 ∈ L.map Prod.fst := hsub m0 (by simp)
    have hsome : (assocGet L m0).isSome = true := (assocGet_isSome_iff _ _).mpr hm0
    have hlen : (assocDelete L m0).1.length + 1 = L.length := length_assocDelete_some hsome
    have hkeys : ((assocDelete L m0).1).map Prod.fst = (L.map Prod.fst).erase m0 :=
      keys_assocDelete L m0
    show ((Log.run (rest.map fun k => Op.del k) (Log.delete m0 L).2).2).length + _ = _
    have hrec := ih (Log.delete m0 L).2 ?_ hnd.2 ?_
    · show ((Log.run (rest.map fun k => Op.del k) (assocDelete L m0).1).2).length + (rest.length + 1) = L.length
      have hrec2 : ((Log.run (rest.map fun k => Op.del k) (assocDelete L m0).1).2).length + rest.length = (assocDelete L m0).1.length := hrec
      omega
    · show (((assocDelete L m0).1).map Prod.fst).Nodup
      rw [hkeys]
      exact hLnd.erase m0
    · intro k hk
      show k ∈ ((assocDelete L m0).1).map Prod.fst
      rw [hkeys]
      have hne : k ≠ m0 := fun he => hnd.1 (he ▸ hk)
      exact List.mem_erase_of_ne hne |>.mpr (hsub k (by simp [hk]))

/-- Whether an operation is a Set or SetAccept on the given key. -/
def Op.setsKey {α : Type} (k : String) : Op α → Bool
  | .set k2 _ => k2 = k
  | .setAcc k2 _ _ => k2 = k
  | _ => false

/-- A key never targeted by Set or SetAccept stays absent from the logical
map across any single operation. -/
theorem log_lookup_none_preserved {α : Type} (k : String) (op : Op α)
    (L : List (String × α)) (hop : Op.setsKey k op = false)
    (h : assocGet L k = none) : assocGet (Log.runOp op L).2 k = none := by
  cases op with
  | set k2 v =>
    have hne : k ≠ k2 := by
      simp [Op.setsKey] at hop
      exact fun he => hop he.symm
    show assocGet (assocSet L k2 v).1 k = none
    rw [assocGet_assocSet_ne _ _ _ _ hne]
    exact h
  | get k2 => exact h
  | del k2 =>
    show assocGet (assocDelete L k2).1 k = none
    by_cases hne : k = k2
    · subst hne
      rw [assocDelete_none h]
      exact h
    · rw [assocGet_assocDelete_ne _ _ _ hne]
      exact h
  | setAcc k2 v a =>
    have hne : k ≠ k2 := by
      simp [Op.setsKey] at hop
      exact fun he => hop he.symm
    show assocGet (Log.setAccept k2 v a L).2 k = none
    cases a with
    | none =>
      show assocGet (assocSet L k2 v).1 k = none
      rw [assocGet_assocSet_ne _ _ _ _ hne]
      exact h
    | some f =>
      by_cases hacc : f (assocGet L k2) (assocGet L k2).isSome = true
      · rw [log_setAccept_accepted L k2 v f hacc]
        show assocGet (assocSet L k2 v).1 k = none
        rw [assocGet_assocSet_ne _ _ _ _ hne]
        exact h
      · rw [Bool.not_eq_true] at hacc
        rw [log_setAccept_reject L k2 v f hacc]
        exact h
  | delAcc k2 a =>
    show assocGet (Log.deleteAccept k2 a L).2 k = none
    cases a with
    | none =>
      show assocGet (assocDelete L k2).1 k = none
      by_cases hne : k = k2
      · subst hne
        rw [assocDelete_none h]
        exact h
      · rw [assocGet_assocDelete_ne _ _ _ hne]
        exact h
    | some f =>
      by_cases hacc : f (assocGet L k2) (assocGet L k2).isSome = true
      · rw [log_deleteAccept_accepted L k2 f hacc]
        show assocGet (assocDelete L k2).1 k = none
        by_cases hne : k = k2
        · subst hne
          rw [assocDelete_none h]
          exact h
        · rw [assocGet_assocDelete_ne _ _ _ hne]
          exact h
      · rw [Bool.not_eq_true] at hacc
        cases hget : assocGet L k2 with
        | none =>
          rw [log_deleteAccept_reject_none L k2 f hget (by rw [hget] at hacc; simpa using hacc)]
          exact h
        | some p =>
          rw [log_deleteAccept_reject_some L k2 f p hget (by rw [hget] at hacc; simpa using hacc)]
          have hne : k ≠ k2 := by
            intro he
            subst he
            rw [h] at hget
            exact Option.noConfusion hget
          show assocGet (assocSet (assocDelete L k2).1 k2 p).1 k = none
          rw [assocGet_assocSet_ne _ _ _ _ hne, assocGet_assocDelete_ne _ _ _ hne]
          exact h
  | len => exact h
  | clear => rfl

theorem log_run_append {α : Type} (a b : List (Op α)) (L : List (String × α)) :
    (Log.run (a ++ b) L).2 = (Log.run b ((Log.run a L).2)).2 := by
  induction a generalizing L with
  | nil => rfl
  | cons op rest ih =>
    show (Log.run (rest ++ b) (Log.runOp op L).2).2 = _
    exact ih (Log.runOp op L).2

theorem log_run_no_set {α : Type} (k : String) :
    ∀ (ops : List (Op α)) (L : List (String × α)),
    (∀ op ∈ ops, Op.setsKey k op = false) → assocGet L k = none →
    assocGet (Log.run ops L).2 k = none := by
  intro ops
  induction ops with
  | nil =>
    intro L _ h
    exact h
  | cons op rest ih =>
    intro L hops h
    show assocGet (Log.run rest (Log.runOp op L).2).2 k = none
    refine ih (Log.runOp op L).2 (fun op2 h2 => hops op2 (by simp [h2])) ?_
    exact log_lookup_none_preserved k op L (hops op (by simp)) h

theorem entries_initDo {α : Type} (ncpu : Nat) (m : Map α) :
    Map.entries ncpu (m.initDo ncpu) = Map.entries ncpu m := by
  unfold Map.entries
  rw [initDo_idem]

theorem delete_out_eq_get {α : Type} (hf : String → Nat) (ncpu : Nat) (key : String)
    (m : Map α) : (Map.delete hf ncpu key m).1 = (Map.get hf ncpu key m).1 := by
  simp only [Map.delete, Map.get, Rhh.delete, Rhh.get]
  rw [assocDelete_prev]

/-- A concrete stand-in hash for witnesses: everything to shard 0. -/
def hashZero : String → Nat := fun _ => 0

/-- A concrete stand-in hash separating "a" from other keys. -/
def hashA : String → Nat := fun k => if k = "a" then 1 else 0

/-- C1 (amended): for every sequential sequence of Set, Get, Delete,
SetAccept, DeleteAccept, Len and Clear calls from a fresh map, the sharded
map produces exactly the same results as a single logical key/value map, the
final per-key contents agree, and a full Range visits exactly the same set of
entries as the logical map — only Range's visit order across shards may
differ from the logical map's insertion order. -/
theorem c1_sequential_refinement {α : Type} (hf : String → Nat) (ncpu cap : Nat)
    (ops : List (Op α)) :
    (Map.run hf ncpu ops (Map.new cap)).1 = (Log.run ops ([] : List (String × α))).1
    ∧ (∀ k : String, (Map.get hf ncpu k ((Map.run hf ncpu ops (Map.new cap)).2)).1
        = Log.get k ((Log.run ops ([] : List (String × α))).2))
    ∧ (∀ kv : String × α,
        kv ∈ Map.rangeCollect ncpu ((Map.run hf ncpu ops (Map.new cap)).2)
        ↔ kv ∈ Log.rangeCollect ((Log.run ops ([] : List (String × α))).2)) := by
  obtain ⟨h1, H⟩ := run_new hf ncpu cap ops
  refine ⟨h1, ?_, ?_⟩
  · intro k
    have hg := (get_sim H k).1
    rw [get_initDo] at hg
    exact hg
  · intro kv
    obtain ⟨k, v⟩ := kv
    rw [log_rangeCollect_eq, rangeCollect_eq_entries, ← entries_initDo]
    exact entries_mem_iff H k v

/-- C1 counterexample (the claim as stated is false for Range): with two keys
routed to different shards, the sequence of entries Range passes to the
visitor on the sharded map differs from the one a single logical map
produces — the observable outcome of Range changes with the sharding. -/
theorem c1_range_order_cex :
    Map.rangeCollect 1 ((Map.run hashA 1 [Op.set "a" 1, Op.set "b" 2] (Map.new 0)).2)
      ≠ Log.rangeCollect ((Log.run [Op.set "a" 1, Op.set "b" 2] ([] : List (String × Nat))).2)
    ∧ Map.rangeCollect 1 ((Map.run hashA 1 [Op.set "a" 1, Op.set "b" 2] (Map.new 0)).2)
      = [("b", 2), ("a", 1)]
    ∧ Log.rangeCollect ((Log.run [Op.set "a" 1, Op.set "b" 2] ([] : List (String × Nat))).2)
      = [("a", 1), ("b", 2)] := by decide

/-- C2: if SetAccept's callback is invoked and returns false, SetAccept
returns (nil, false) and a subsequent Get on that key sees exactly the state
from before the call (a previous value is restored verbatim; a key that did
not exist is deleted again). -/
theorem c2_setaccept_reject_unchanged {α : Type} (hf : String → Nat) (ncpu : Nat)
    (m : Map α) (key : String) (value : α) (f : Option α → Bool → Bool)
    (hrej : f (Map.get hf ncpu key m).1.1 (Map.get hf ncpu key m).1.2 = false) :
    (Map.setAccept hf ncpu key value (some f) m).1 = (none, false)
    ∧ (Map.get hf ncpu key ((Map.setAccept hf ncpu key value (some f) m).2)).1
        = (Map.get hf ncpu key m).1 := by
  have hrej2 : f (((m.initDo ncpu).shardAt (Map.choose hf (m.initDo ncpu) key)).get key)
      (((m.initDo ncpu).shardAt (Map.choose hf (m.initDo ncpu) key)).get key).isSome
      = false := hrej
  have heq := setAccept_reject hf ncpu (m.initDo ncpu) key value f
    (initDo_inited ncpu m) hrej2
  rw [setAccept_initDo] at heq
  rw [heq]
  exact ⟨rfl, (get_initDo hf ncpu key m).symm ▸ rfl⟩

/-- C2 witness: a concrete rejected SetAccept on a fresh map. -/
theorem c2_witness :
    (Map.setAccept hashZero 0 "k" 5 (some fun _ _ => false) (Map.new 0 : Map Nat)).1
      = (none, false)
    ∧ (Map.get hashZero 0 "k"
        ((Map.setAccept hashZero 0 "k" 5 (some fun _ _ => false) (Map.new 0)).2)).1
      = (Map.get hashZero 0 "k" (Map.new 0 : Map Nat)).1 :=
  c2_setaccept_reject_unchanged hashZero 0 (Map.new 0) "k" 5 (fun _ _ => false)
    (by decide)

/-- C3 counterexample: in the spec's scenario the rejected second SetAccept
reverts "hello" to the value from immediately before that call — "planet" —
so the subsequent Get returns ("planet", true), not ("world", true) as the
claim states. -/
theorem c3_scenario_cex :
    ((Map.setAccept hashZero 1 "hello" "planet"
        (some fun p _ => decide (p = some "world"))
        ((Map.set hashZero 1 "hello" "world" (Map.new 0)).2)).1
      = (some "world", true))
    ∧ ((Map.get hashZero 1 "hello"
        ((Map.setAccept hashZero 1 "hello" "planet"
          (some fun p _ => decide (p = some "world"))
          ((Map.set hashZero 1 "hello" "world" (Map.new 0)).2)).2)).1
      = (some "planet", true))
    ∧ ((Map.setAccept hashZero 1 "hello" "world" (some fun _ _ => false)
        ((Map.setAccept hashZero 1 "hello" "planet"
          (some fun p _ => decide (p = some "world"))
          ((Map.set hashZero 1 "hello" "world" (Map.new 0)).2)).2)).1
      = (none, false))
    ∧ ¬ ((Map.get hashZero 1 "hello"
        ((Map.setAccept hashZero 1 "hello" "world" (some fun _ _ => false)
          ((Map.setAccept hashZero 1 "hello" "planet"
            (some fun p _ => decide (p = some "world"))
            ((Map.set hashZero 1 "hello" "world" (Map.new 0)).2)).2)).2)).1
      = (some "world", true)) := by decide

/-- C3 (amended): after Set("hello","world") and an accepted
SetAccept("hello","planet") — which returns (world, true) and leaves
Get = (planet, true) — a rejected SetAccept("hello","world") returns
(nil, false) and Get("hello") returns ("planet", true): the rejected call's
tentative set is reverted to the pre-call value "planet". -/
theorem c3_scenario_amended :
    ((Map.setAccept hashZero 1 "hello" "planet"
        (some fun p _ => decide (p = some "world"))
        ((Map.set hashZero 1 "hello" "world" (Map.new 0)).2)).1
      = (some "world", true))
    ∧ ((Map.get hashZero 1 "hello"
        ((Map.setAccept hashZero 1 "hello" "planet"
          (some fun p _ => decide (p = some "world"))
          ((Map.set hashZero 1 "hello" "world" (Map.new 0)).2)).2)).1
      = (some "planet", true))
    ∧ ((Map.setAccept hashZero 1 "hello" "world" (some fun _ _ => false)
        ((Map.setAccept hashZero 1 "hello" "planet"
          (some fun p _ => decide (p = some "world"))
          ((Map.set hashZero 1 "hello" "world" (Map.new 0)).2)).2)).1
      = (none, false))
    ∧ ((Map.get hashZero 1 "hello"
        ((Map.setAccept hashZero 1 "hello" "world" (some fun _ _ => false)
          ((Map.setAccept hashZero 1 "hello" "planet"
            (some fun p _ => decide (p = some "world"))
            ((Map.set hashZero 1 "hello" "world" (Map.new 0)).2)).2)).2)).1
      = (some "planet", true)) := by decide

theorem get_out {α : Type} (hf : String → Nat) (ncpu : Nat) (key : String)
    (m : Map α) (hin : m.inited = true) :
    (Map.get hf ncpu key m).1 = ((m.shardAt (Map.choose hf m key)).get key,
      ((m.shardAt (Map.choose hf m key)).get key).isSome) := by
  simp only [Map.get, initDo_of_inited ncpu m hin]

/-- C4: DeleteAccept's contract — a rejected tentative delete of an existing
entry restores the value exactly (round-trip observable by Get) and returns
(nil, false); an accepting callback, or no callback, yields (prev, wasDeleted)
for the deleted entry. -/
theorem c4_deleteaccept_contract {α : Type} (hf : String → Nat) (ncpu : Nat)
    (m : Map α) (key : String) (f : Option α → Bool → Bool) (p : α) :
    ((Map.get hf ncpu key m).1 = (some p, true) → f (some p) true = false →
      (Map.deleteAccept hf ncpu key (some f) m).1 = (none, false)
      ∧ (Map.get hf ncpu key ((Map.deleteAccept hf ncpu key (some f) m).2)).1
          = (some p, true))
    ∧ (f (Map.get hf ncpu key m).1.1 (Map.get hf ncpu key m).1.2 = true →
      (Map.deleteAccept hf ncpu key (some f) m).1 = (Map.get hf ncpu key m).1)
    ∧ (Map.deleteAccept hf ncpu key none m).1 = (Map.get hf ncpu key m).1 := by
  refine ⟨?_, ?_, ?_⟩
  · intro h1 h2
    have hgl : ((m.initDo ncpu).shardAt (Map.choose hf (m.initDo ncpu) key)).get key
        = some p := by
      have := congrArg Prod.fst h1
      exact this
    have heq := deleteAccept_reject_some hf ncpu (m.initDo ncpu) key f p
      (initDo_inited ncpu m) hgl h2
    rw [deleteAccept_initDo] at heq
    rw [heq]
    refine ⟨rfl, ?_⟩
    set m1 := m.initDo ncpu with hm1
    set c := Map.choose hf m1 key with hc
    set nsh : Rhh α := ⟨(m1.shardAt c).cap,
      (assocSet (assocDelete (m1.shardAt c).data key).1 key p).1⟩ with hnsh
    have hclt : c < m1.maps.length := by
      by_contra hcon
      push_neg at hcon
      have hdef : m1.shardAt c = Rhh.new 0 := getD_eq_default _ _ _ hcon
      rw [hdef] at hgl
      exact Option.noConfusion hgl
    have hM'in : ({ m1 with maps := m1.maps.set c nsh } : Map α).inited = true :=
      initDo_inited ncpu m
    rw [get_out hf ncpu key _ hM'in]
    have hAt : ({ m1 with maps := m1.maps.set c nsh } : Map α).shardAt
        (Map.choose hf { m1 with maps := m1.maps.set c nsh } key) = nsh := by
      show (m1.maps.set c nsh).getD (hf key &&& (m1.shards - 1)) (Rhh.new 0) = nsh
      exact getD_set_self _ _ _ _ hclt
    rw [hAt]
    show (assocGet (assocSet (assocDelete (m1.shardAt c).data key).1 key p).1 key,
      (assocGet (assocSet (assocDelete (m1.shardAt c).data key).1 key p).1 key).isSome)
      = (some p, true)
    rw [assocGet_assocSet_self]
    rfl
  · intro hacc
    have heq := deleteAccept_accepted hf ncpu (m.initDo ncpu) key f
      (initDo_inited ncpu m) hacc
    rw [deleteAccept_initDo, delete_initDo] at heq
    rw [heq, delete_out_eq_get]
  · show (Map.delete hf ncpu key m).1 = _
    exact delete_out_eq_get hf ncpu key m

/-- C4 witness: a concrete rejected DeleteAccept restores the entry. -/
theorem c4_witness :
    (Map.deleteAccept hashZero 0 "k" (some fun _ _ => false)
      ((Map.run hashZero 0 [Op.set "k" 7] (Map.new 0)).2)).1 = (none, false)
    ∧ (Map.get hashZero 0 "k"
        ((Map.deleteAccept hashZero 0 "k" (some fun _ _ => false)
          ((Map.run hashZero 0 [Op.set "k" 7] (Map.new 0)).2)).2)).1
      = (some 7, true) :=
  (c4_deleteaccept_contract hashZero 0
    ((Map.run hashZero 0 [Op.set "k" 7] (Map.new 0)).2) "k" (fun _ _ => false) 7).1
    (by decide) (by decide)

/-- C5: the lazily computed shard count is the least power of two that is at
least NumCPU × 16, it is the shard count of the initialized map and of every
map reachable from it (fixed for the life of the map), and the router computes
hash AND (shards - 1), which equals hash mod shards. -/
theorem c5_shard_count_and_router {α : Type} (hf : String → Nat) (ncpu cap : Nat)
    (key : String) (ops : List (Op α)) :
    (∃ e, shardCount ncpu = 2 ^ e)
    ∧ ncpu * 16 ≤ shardCount ncpu
    ∧ (∀ T, (∃ e, T = 2 ^ e) → ncpu * 16 ≤ T → shardCount ncpu ≤ T)
    ∧ ((Map.new (α := α) cap).initDo ncpu).shards = shardCount ncpu
    ∧ ((Map.run hf ncpu ops ((Map.new (α := α) cap).initDo ncpu)).2).shards
        = shardCount ncpu
    ∧ Map.choose hf ((Map.new (α := α) cap).initDo ncpu) key
        = hf key % shardCount ncpu := by
  have H0 := inv_init (α := α) hf ncpu cap
  refine ⟨shardCount_pow2 ncpu, shardCount_ge ncpu, ?_, H0.shards_eq, ?_, ?_⟩
  · intro T hT2 hT
    obtain ⟨e, he⟩ := hT2
    have hT1 : 1 ≤ T := he ▸ Nat.pos_pow_of_pos e (by omega)
    exact shardLoop_min (ncpu * 16) 1 T hT1 hT ⟨0, rfl⟩ ⟨e, he⟩
  · exact (run_sim ops H0).2.shards_eq
  · show hf key &&& (((Map.new (α := α) cap).initDo ncpu).shards - 1) = _
    rw [H0.shards_eq]
    obtain ⟨e, he⟩ := shardCount_pow2 ncpu
    rw [he]
    exact Nat.and_pow_two_sub_one_eq_mod _ e

/-- C5 witness: with one CPU the shard count is 16 = 2^4, minimal among
powers of two at least 16, and the router reduces mod 16. -/
theorem c5_witness :
    shardCount 1 = 16
    ∧ shardCount 1 ≤ 16
    ∧ ((Map.new (α := Nat) 0).initDo 1).shards = shardCount 1
    ∧ Map.choose hashA ((Map.new (α := Nat) 0).initDo 1) "a" = hashA "a" % shardCount 1 := by
  obtain ⟨h1, h2, h3, h4, h5, h6⟩ :=
    c5_shard_count_and_router (α := Nat) hashA 1 0 "a" []
  exact ⟨by decide, h3 16 ⟨4, by decide⟩ (by decide), h4, h6⟩

/-- C6: inserting N pairwise-distinct keys into a fresh map makes Len N;
deleting M of those keys afterwards makes Len N - M. -/
theorem c6_len_counts {α : Type} (hf : String → Nat) (ncpu cap : Nat) (f : String → α)
    (ks ms : List String) (h1 : ks.Nodup) (h2 : ms.Nodup) (h3 : ∀ k ∈ ms, k ∈ ks) :
    (Map.len ncpu ((Map.run hf ncpu (ks.map fun k => Op.set k (f k))
        (Map.new cap)).2)).1 = ks.length
    ∧ (Map.len ncpu ((Map.run hf ncpu ((ks.map fun k => Op.set k (f k))
        ++ (ms.map fun k => Op.del k)) (Map.new cap)).2)).1
      = ks.length - ms.length := by
  have hkeys : ((Log.run (ks.map fun k => Op.set k (f k))
      ([] : List (String × α))).2).map Prod.fst = ks := by
    have := log_run_sets f ks [] (by simp) h1
    simpa using this
  have hlen1 : ((Log.run (ks.map fun k => Op.set k (f k))
      ([] : List (String × α))).2).length = ks.length := by
    have := congrArg List.length hkeys
    simpa using this
  constructor
  · have H := (run_new hf ncpu cap (ks.map fun k => Op.set k (f k))).2
    rw [← len_initDo]
    rw [H.len_out]
    exact hlen1
  · have H := (run_new hf ncpu cap ((ks.map fun k => Op.set k (f k))
      ++ (ms.map fun k => Op.del k))).2
    rw [← len_initDo]
    rw [H.len_out]
    rw [log_run_append]
    have hdel := log_run_dels ms ((Log.run (ks.map fun k => Op.set k (f k))
      ([] : List (String × α))).2) (by rw [hkeys]; exact h1) h2
      (by intro k hk; rw [hkeys]; exact h3 k hk)
    omega

/-- C6 witness: three inserts then two deletes on concrete keys. -/
theorem c6_witness :
    (Map.len 0 ((Map.run hashZero 0
        (["a", "b", "c"].map fun k => Op.set k (0 : Nat)) (Map.new 0)).2)).1 = 3
    ∧ (Map.len 0 ((Map.run hashZero 0
        ((["a", "b", "c"].map fun k => Op.set k (0 : Nat))
          ++ (["a", "b"].map fun k => Op.del k)) (Map.new 0)).2)).1 = 1 := by
  have h := c6_len_counts hashZero 0 0 (fun _ => (0 : Nat)) ["a", "b", "c"] ["a", "b"]
    (by decide) (by decide) (by decide)
  exact ⟨h.1, h.2⟩

/-- C7: on a map with at least one entry, a visitor that returns false on its
first invocation is invoked exactly once — the current shard's iteration stops
and no further shards are visited — whatever the shard count and layout. -/
theorem c7_range_early_stop {α σ : Type} (ncpu : Nat) (m : Map α)
    (g : σ → String → α → σ) (s0 : σ) (hne : 1 ≤ (Map.len ncpu m).1) :
    (Map.range ncpu (fun sn k v => ((g sn.1 k v, sn.2 + 1), false)) (s0, 0) m).1.2 = 1
    ∧ ∃ kv : String × α, kv ∈ Map.entries ncpu m ∧
      (Map.range ncpu (fun sn k v => ((g sn.1 k v, sn.2 + 1), false)) (s0, 0) m).1.1
        = g s0 kv.1 kv.2 := by
  have hsum : 1 ≤ (((m.initDo ncpu).shardSeq).map Rhh.len).sum := hne
  obtain ⟨kv, hkv, hres⟩ := rangeShards_stop_once g ((m.initDo ncpu).shardSeq) s0 0 hsum
  have hr : (Map.range ncpu (fun sn k v => ((g sn.1 k v, sn.2 + 1), false)) (s0, 0) m).1
      = rangeShards (fun sn k v => ((g sn.1 k v, sn.2 + 1), false))
        ((m.initDo ncpu).shardSeq) (s0, 0) := rfl
  rw [hr, hres]
  exact ⟨rfl, kv, hkv, rfl⟩

/-- C7 witness: the counting visitor fires once on a one-entry map. -/
theorem c7_witness :
    (Map.range 0 (fun (sn : List String × Nat) (k : String) (v : Nat)
        => ((sn.1 ++ [k], sn.2 + 1), false)) ([], 0)
      ((Map.run hashZero 0 [Op.set "k" 5] (Map.new 0)).2)).1.2 = 1
    ∧ ∃ kv : String × Nat,
      kv ∈ Map.entries 0 ((Map.run hashZero 0 [Op.set "k" 5] (Map.new 0)).2) ∧
      (Map.range 0 (fun (sn : List String × Nat) (k : String) (v : Nat)
          => ((sn.1 ++ [k], sn.2 + 1), false)) ([], 0)
        ((Map.run hashZero 0 [Op.set "k" 5] (Map.new 0)).2)).1.1 = [] ++ [kv.1] :=
  c7_range_early_stop 0 ((Map.run hashZero 0 [Op.set "k" 5] (Map.new 0)).2)
    (fun s k _ => s ++ [k]) [] (by decide)

/-- C8: after Clear on any reachable map state, Len is 0 and Get on any key
returns (nil, false); the shard count, the capacity, and the key routing are
those of the initialized map, the map stays initialized, and every shard slot
holds a freshly constructed empty store with the original capacity hint
cap / shards. -/
theorem c8_clear {α : Type} (hf : String → Nat) (ncpu cap : Nat) (ops : List (Op α)) :
    (Map.len ncpu (Map.clear ncpu ((Map.run hf ncpu ops (Map.new cap)).2))).1 = 0
    ∧ (∀ k : String, (Map.get hf ncpu k
        (Map.clear ncpu ((Map.run hf ncpu ops (Map.new cap)).2))).1 = (none, false))
    ∧ (Map.clear ncpu ((Map.run hf ncpu ops (Map.new cap)).2)).shards
        = (((Map.run hf ncpu ops (Map.new cap)).2).initDo ncpu).shards
    ∧ (Map.clear ncpu ((Map.run hf ncpu ops (Map.new cap)).2)).cap
        = (((Map.run hf ncpu ops (Map.new cap)).2).initDo ncpu).cap
    ∧ (Map.clear ncpu ((Map.run hf ncpu ops (Map.new cap)).2)).inited = true
    ∧ (∀ k : String, Map.choose hf (Map.clear ncpu ((Map.run hf ncpu ops (Map.new cap)).2)) k
        = Map.choose hf (((Map.run hf ncpu ops (Map.new cap)).2).initDo ncpu) k)
    ∧ (Map.clear ncpu ((Map.run hf ncpu ops (Map.new cap)).2)).maps
        = List.replicate (Map.clear ncpu ((Map.run hf ncpu ops (Map.new cap)).2)).shards
            (Rhh.new ((Map.clear ncpu ((Map.run hf ncpu ops (Map.new cap)).2)).cap
              / (Map.clear ncpu ((Map.run hf ncpu ops (Map.new cap)).2)).shards)) := by
  have H := (run_new hf ncpu cap ops).2
  have hcl : Map.clear ncpu ((Map.run hf ncpu ops (Map.new cap)).2)
      = Map.clear ncpu (((Map.run hf ncpu ops (Map.new cap)).2).initDo ncpu) :=
    (clear_initDo ncpu _).symm
  have HC := clear_sim H
  have hcs := clear_state H
  rw [hcl]
  refine ⟨HC.len_out, ?_, ?_, ?_, HC.inited, ?_, ?_⟩
  · intro k
    exact (get_sim HC k).1
  · rw [hcs]
  · rw [hcs]
  · intro k
    rw [hcs]
    rfl
  · rw [hcs]

/-- C9: a key never targeted by Set or SetAccept is absent: on a fresh map
(any capacity hint) Get and Delete return (nil, false) and Len is 0, and
after any operation sequence that never sets the key, Get and Delete still
return (nil, false) — absence is always the boolean flag with a nil value. -/
theorem c9_missing_key {α : Type} (hf : String → Nat) (ncpu cap : Nat) (k : String) :
    ((Map.get hf ncpu k (Map.new (α := α) cap)).1 = (none, false)
      ∧ (Map.delete hf ncpu k (Map.new (α := α) cap)).1 = (none, false)
      ∧ (Map.len ncpu (Map.new (α := α) cap)).1 = 0)
    ∧ ∀ ops : List (Op α), (∀ op ∈ ops, Op.setsKey k op = false) →
      (Map.get hf ncpu k ((Map.run hf ncpu ops (Map.new cap)).2)).1 = (none, false)
      ∧ (Map.delete hf ncpu k ((Map.run hf ncpu ops (Map.new cap)).2)).1 = (none, false) := by
  have H0 := inv_init (α := α) hf ncpu cap
  constructor
  · refine ⟨?_, ?_, ?_⟩
    · have hg := (get_sim H0 k).1
      rw [get_initDo] at hg
      exact hg
    · rw [delete_out_eq_get]
      have hg := (get_sim H0 k).1
      rw [get_initDo] at hg
      exact hg
    · rw [← len_initDo]
      exact H0.len_out
  · intro ops hops
    have H := (run_new hf ncpu cap ops).2
    have hnone : assocGet ((Log.run ops ([] : List (String × α))).2) k = none :=
      log_run_no_set k ops [] hops rfl
    have hg := (get_sim H k).1
    rw [get_initDo] at hg
    have hlg : Log.get k ((Log.run ops ([] : List (String × α))).2) = (none, false) := by
      unfold Log.get
      rw [hnone]
      rfl
    rw [hlg] at hg
    exact ⟨hg, by rw [delete_out_eq_get]; exact hg⟩

/-- C9 witness: the key "b" is untouched by setting "a", so Get and Delete
report absence. -/
theorem c9_witness :
    (Map.get hashZero 0 "b" ((Map.run hashZero 0 [Op.set "a" (1 : Nat)]
        (Map.new 0)).2)).1 = (none, false)
    ∧ (Map.delete hashZero 0 "b" ((Map.run hashZero 0 [Op.set "a" (1 : Nat)]
        (Map.new 0)).2)).1 = (none, false) :=
  (c9_missing_key hashZero 0 0 "b").2 [Op.set "a" 1] (by decide)

/-- C10: after lazy initialization the shard count is a power of two and at
least 1, the shard array has exactly that many slots — before and after any
sequence of operations — and the router's result is always a valid index. -/
theorem c10_router_in_bounds {α : Type} (hf : String → Nat) (ncpu cap : Nat)
    (ops : List (Op α)) (k : String) :
    1 ≤ ((Map.run hf ncpu ops ((Map.new (α := α) cap).initDo ncpu)).2).shards
    ∧ (∃ e, ((Map.run hf ncpu ops ((Map.new (α := α) cap).initDo ncpu)).2).shards = 2 ^ e)
    ∧ ((Map.run hf ncpu ops ((Map.new (α := α) cap).initDo ncpu)).2).maps.length
        = ((Map.run hf ncpu ops ((Map.new (α := α) cap).initDo ncpu)).2).shards
    ∧ Map.choose hf ((Map.run hf ncpu ops ((Map.new (α := α) cap).initDo ncpu)).2) k
        < ((Map.run hf ncpu ops ((Map.new (α := α) cap).initDo ncpu)).2).shards := by
  have H := (run_sim ops (inv_init (α := α) hf ncpu cap)).2
  obtain ⟨e, he⟩ := H.pow2
  refine ⟨?_, H.pow2, H.len_maps, H.choose_lt k⟩
  rw [he]
  exact Nat.pos_pow_of_pos e (by omega)

end Shardmap
